import Mathlib

/-!
Formal model of the `trees` crate's local node linkage engine
(`src/local/node.rs` and `src/local/heap.rs`): a shallow embedding of the
leftmost-child / circular-right-sibling pointer structure over an explicit
heap, together with proofs about the structural operations
(`push_front`, `push_back`, `pop_front`, `prepend`, `append`,
`children`, `make_node`, `Extend`, `PartialEq`).

Pointers are modelled as `Option Nat` (null = `none`, otherwise a heap
address); the heap is a bump allocator mapping addresses to node records.
-/

namespace Trees

variable {T : Type}

/-- One tree vertex as laid out in `src/local/node.rs`:
`down` is the *last* child (null when leafless), `right` the next sibling
in circular order, `data` the payload. -/
structure Node (T : Type) where
  down : Option Nat
  right : Option Nat
  data : T
deriving DecidableEq

/-- The heap backing the nodes: a bump allocator.  Addresses
`0 .. size-1` have been handed out; `mem` gives the record stored at each
address. -/
structure Heap (T : Type) where
  size : Nat
  mem : Nat → Node T

/-- Read the node record at address `a` (`*a` on a valid pointer). -/
def getN (h : Heap T) (a : Nat) : Node T := h.mem a

/-- Overwrite the node record at address `a`. -/
def setN (h : Heap T) (a : Nat) (n : Node T) : Heap T :=
  ⟨h.size, Function.update h.mem a n⟩

/-- Dereferencing a null pointer is UB in the source; the model sends it
to address 0.  Every theorem's hypotheses keep dereferences on `some`. -/
def deref (p : Option Nat) : Nat := p.getD 0

/-- Source `Node::set_child`: `self.down = child`. -/
def set_child (h : Heap T) (a : Nat) (child : Option Nat) : Heap T :=
  setN h a { getN h a with down := child }

/-- Source `Node::reset_child`: `self.down = null`. -/
def reset_child (h : Heap T) (a : Nat) : Heap T := set_child h a none

/-- Source `Node::is_leaf`: `self.down.is_null()`. -/
def is_leaf (h : Heap T) (a : Nat) : Bool := (getN h a).down.isNone

/-- Source `Node::set_sib`: `self.right = right`. -/
def set_sib (h : Heap T) (a : Nat) (r : Option Nat) : Heap T :=
  setN h a { getN h a with right := r }

/-- Source `Node::reset_sib`: `self.right = self`. -/
def reset_sib (h : Heap T) (a : Nat) : Heap T := set_sib h a (some a)

/-- Source `Node::has_no_sib`: `self.right == self`. -/
def has_no_sib (h : Heap T) (a : Nat) : Bool := (getN h a).right == some a

/-- Source `Node::tail`: `self.down` (the last child). -/
def tail (h : Heap T) (a : Nat) : Option Nat := (getN h a).down

/-- Source `Node::head`: `(*self.down).right` (the first child, by circularity). -/
def head (h : Heap T) (a : Nat) : Option Nat :=
  (getN h (deref (tail h a))).right

/-- Source `Node::new_head`: `(*self.head()).right`. -/
def new_head (h : Heap T) (a : Nat) : Option Nat :=
  (getN h (deref (head h a))).right

/-- Source `Node::adopt`: `(*self.tail()).right = child`. -/
def adopt (h : Heap T) (a : Nat) (child : Option Nat) : Heap T :=
  set_sib h (deref (tail h a)) child

/-- Source `Node::has_only_one_child`: `self.head() == self.tail()`. -/
def has_only_one_child (h : Heap T) (a : Nat) : Bool :=
  head h a == tail h a

/-- Modelled from the spec: `Tree` (its source file is outside `src/`)
owns one root node; an emptied (moved-from) tree holds a null root. -/
structure Tree where
  root : Option Nat
deriving DecidableEq

/-- Modelled from the spec: clearing a `Tree` marks it empty after its
ownership has been transferred. -/
def Tree.clear (_t : Tree) : Tree := ⟨none⟩

/-- Modelled from the spec: a `Tree` dereferences to its root node, so
`tree.set_sib(r)` sets the root's `right`. -/
def Tree.set_sib (h : Heap T) (t : Tree) (r : Option Nat) : Heap T :=
  Trees.set_sib h (deref t.root) r

/-- Modelled from the spec: `Forest` (its source file is outside `src/`)
is represented the same way a node's children are — a tail pointer into a
circular sibling chain of tree roots, null when empty. -/
structure Forest where
  tailPtr : Option Nat
deriving DecidableEq

/-- Modelled from the spec: a forest is empty iff its tail pointer is null. -/
def Forest.is_empty (f : Forest) : Bool := f.tailPtr.isNone

/-- Modelled from the spec: the forest's tail (last tree root). -/
def Forest.tail (f : Forest) : Option Nat := f.tailPtr

/-- Modelled from the spec: the forest's head is its tail's `right`,
by circularity. -/
def Forest.head (h : Heap T) (f : Forest) : Option Nat :=
  (getN h (deref f.tailPtr)).right

/-- Modelled from the spec: setting the forest's sibling link sets the
tail root's `right` (the same tail/head-splice technique as for trees). -/
def Forest.set_sib (h : Heap T) (f : Forest) (r : Option Nat) : Heap T :=
  Trees.set_sib h (deref f.tailPtr) r

/-- Modelled from the spec: clearing a `Forest` marks it empty. -/
def Forest.clear (_f : Forest) : Forest := ⟨none⟩

/-- Source `make_node` from `src/local/heap.rs`: allocate a fresh record with
null `down` and `right`, then `reset_sib` so `right` points to itself.
Returns the new heap and the new address. -/
def make_node (h : Heap T) (d : T) : Heap T × Nat :=
  let a := h.size
  let h1 : Heap T := ⟨h.size + 1, Function.update h.mem a ⟨none, none, d⟩⟩
  (reset_sib h1 a, a)

/-- Source `Node::push_front`: add the tree as the first child.  If leafless,
`down = tree.root`; otherwise set the incoming root's `right` to the
current head, then the current tail adopts the incoming root.  The tree
is cleared afterwards. -/
def push_front (h : Heap T) (a : Nat) (tree : Tree) : Heap T × Tree :=
  let h' :=
    if is_leaf h a then
      set_child h a tree.root
    else
      adopt (Tree.set_sib h tree (head h a)) a tree.root
  (h', Tree.clear tree)

/-- Source `Node::push_back`: add the tree as the last child.  If not leafless,
splice the incoming root in after the current tail; in both cases `down`
is reassigned to the incoming root.  The tree is cleared afterwards. -/
def push_back (h : Heap T) (a : Nat) (tree : Tree) : Heap T × Tree :=
  let h1 :=
    if is_leaf h a then h
    else adopt (Tree.set_sib h tree (head h a)) a tree.root
  (set_child h1 a tree.root, Tree.clear tree)

/-- Source `Node::pop_front`: remove and return the first child.  Leafless
nodes yield `none`; otherwise the head is detached (the parent becomes
leafless if it was the only child, else the tail's `right` skips to the
new head), its `right` is reset to itself, and it is returned as a
standalone `Tree`. -/
def pop_front (h : Heap T) (a : Nat) : Heap T × Option Tree :=
  if is_leaf h a then (h, none)
  else
    let front := head h a
    let h1 :=
      if has_only_one_child h a then reset_child h a
      else set_sib h (deref (tail h a)) (new_head h a)
    (reset_sib h1 (deref front), some ⟨front⟩)

/-- Source `Node::prepend`: splice a whole forest at the front of the children
list.  No-op on an empty forest; otherwise the leafless case just sets
`down` to the forest's tail, and the general case reads the forest head,
links the forest's tail to the current head and lets the current tail
adopt the forest's head.  The forest is cleared afterwards. -/
def prepend (h : Heap T) (a : Nat) (forest : Forest) : Heap T × Forest :=
  if forest.is_empty then (h, forest)
  else
    let h' :=
      if is_leaf h a then set_child h a forest.tail
      else adopt (Forest.set_sib h forest (head h a)) a (Forest.head h forest)
    (h', forest.clear)

/-- Source `Node::append`: splice a whole forest at the back of the children
list.  As `prepend`, but `down` is reassigned to the forest's tail. -/
def append (h : Heap T) (a : Nat) (forest : Forest) : Heap T × Forest :=
  if forest.is_empty then (h, forest)
  else
    let h' :=
      if is_leaf h a then set_child h a forest.tail
      else
        set_child
          (adopt (Forest.set_sib h forest (head h a)) a (Forest.head h forest))
          a forest.tail
    (h', forest.clear)

/-- One step of the sibling walk: follow `right`. -/
def rightStep (h : Heap T) (x : Nat) : Nat := deref (getN h x).right

/-- Modelled from the spec: the `Iter` returned by `children()` (its
source file is outside `src/`) walks `right` from `down.right` around to
`down` inclusive.  `fuel` bounds the walk; `h.size` steps always suffice
on well-formed chains. -/
def chainFrom (h : Heap T) : Nat → Nat → Nat → List Nat
  | 0, _, _ => []
  | fuel+1, cur, stop =>
    if cur = stop then [cur] else cur :: chainFrom h fuel (rightStep h cur) stop

/-- Source `Node::children`: the sequence of direct child addresses, head to
tail; empty for leafless nodes. -/
def children (h : Heap T) (a : Nat) : List Nat :=
  if is_leaf h a then []
  else chainFrom h h.size (deref (head h a)) (deref (tail h a))

/-- The payloads of the direct children, head to tail. -/
def childData (h : Heap T) (a : Nat) : List T :=
  (children h a).map fun c => (getN h c).data

/-- Source `impl Extend<Tree<T>> for Node<T>`:
`for child in iter { self.push_back(child) }`. -/
def extend (h : Heap T) (a : Nat) (ts : List Tree) : Heap T :=
  ts.foldl (fun hh t => (push_back hh a t).1) h

/-- Source `impl PartialEq for Node`: compare `data` first, then the children
sequences element by element (`Iterator::eq`: equal lengths and equal
elements), recursively.  The recursion is fuel-bounded; any fuel above
the tree's depth gives the source semantics. -/
def eqNode [DecidableEq T] (h : Heap T) : Nat → Nat → Nat → Bool
  | 0, _, _ => false
  | fuel+1, a, b =>
    decide ((getN h a).data = (getN h b).data) &&
      ((children h a).length == (children h b).length &&
        (((children h a).zip (children h b)).all fun p => eqNode h fuel p.1 p.2))

/-- Predicate `finDepth h n a` states that the tree under `a` unfolds completely
within depth `n` (used to discharge the fuel of `eqNode`). -/
def finDepth (h : Heap T) : Nat → Nat → Bool
  | 0, a => (children h a).isEmpty
  | fuel+1, a => (children h a).all fun c => finDepth h fuel c

/-! ### The relational description of sibling chains -/

/-- Predicate `segLinks h l next`: walking `right` visits the elements of `l` in
order, and the last element's `right` is `next`.  A circular chain
`c₁ … cₙ` is `segLinks h [c₁, …, cₙ] c₁`. -/
def segLinks (h : Heap T) : List Nat → Nat → Prop
  | [], _ => True
  | x :: xs, next => (getN h x).right = some (xs.headD next) ∧ segLinks h xs next

instance instDecSegLinks (h : Heap T) :
    (l : List Nat) → (next : Nat) → Decidable (segLinks h l next)
  | [], _ => decidable_of_iff True (by simp [segLinks])
  | x :: xs, next =>
    have := instDecSegLinks h xs next
    decidable_of_iff ((getN h x).right = some (xs.headD next) ∧ segLinks h xs next)
      (by simp [segLinks])

/-- The last element of a (nonempty) address list. -/
def lastOf (l : List Nat) : Nat := l.getLast?.getD 0

/-- Predicate `childrenOf h a cs`: node `a`'s children are exactly `cs` in
head-to-tail order: `down` is the last of `cs` (null when `cs` is empty)
and `cs` is circularly chained through `right`. -/
def childrenOf (h : Heap T) (a : Nat) (cs : List Nat) : Prop :=
  (getN h a).down = cs.getLast? ∧ segLinks h cs (cs.headD 0)

instance instDecChildrenOf (h : Heap T) (a : Nat) (cs : List Nat) :
    Decidable (childrenOf h a cs) :=
  decidable_of_iff ((getN h a).down = cs.getLast? ∧ segLinks h cs (cs.headD 0))
    Iff.rfl

/-! ### Heap update lemmas -/

@[simp] theorem getN_setN_same (h : Heap T) (a : Nat) (n : Node T) :
    getN (setN h a n) a = n := by
  simp [getN, setN]

theorem getN_setN_ne (h : Heap T) (a : Nat) (n : Node T) {x : Nat} (hx : x ≠ a) :
    getN (setN h a n) x = getN h x := by
  simp [getN, setN, Function.update_noteq hx]

@[simp] theorem size_setN (h : Heap T) (a : Nat) (n : Node T) :
    (setN h a n).size = h.size := rfl

@[simp] theorem size_set_sib (h : Heap T) (a : Nat) (r : Option Nat) :
    (set_sib h a r).size = h.size := rfl

@[simp] theorem size_set_child (h : Heap T) (a : Nat) (c : Option Nat) :
    (set_child h a c).size = h.size := rfl

@[simp] theorem right_set_sib_same (h : Heap T) (a : Nat) (r : Option Nat) :
    (getN (set_sib h a r) a).right = r := by
  simp [set_sib]

theorem right_set_sib_ne (h : Heap T) (a : Nat) (r : Option Nat) {x : Nat}
    (hx : x ≠ a) : (getN (set_sib h a r) x).right = (getN h x).right := by
  simp [set_sib, getN_setN_ne _ _ _ hx]

@[simp] theorem down_set_sib (h : Heap T) (a : Nat) (r : Option Nat) (x : Nat) :
    (getN (set_sib h a r) x).down = (getN h x).down := by
  by_cases hx : x = a
  · subst hx; simp [set_sib]
  · simp [set_sib, getN_setN_ne _ _ _ hx]

@[simp] theorem data_set_sib (h : Heap T) (a : Nat) (r : Option Nat) (x : Nat) :
    (getN (set_sib h a r) x).data = (getN h x).data := by
  by_cases hx : x = a
  · subst hx; simp [set_sib]
  · simp [set_sib, getN_setN_ne _ _ _ hx]

@[simp] theorem down_set_child_same (h : Heap T) (a : Nat) (c : Option Nat) :
    (getN (set_child h a c) a).down = c := by
  simp [set_child]

theorem down_set_child_ne (h : Heap T) (a : Nat) (c : Option Nat) {x : Nat}
    (hx : x ≠ a) : (getN (set_child h a c) x).down = (getN h x).down := by
  simp [set_child, getN_setN_ne _ _ _ hx]

@[simp] theorem right_set_child (h : Heap T) (a : Nat) (c : Option Nat) (x : Nat) :
    (getN (set_child h a c) x).right = (getN h x).right := by
  by_cases hx : x = a
  · subst hx; simp [set_child]
  · simp [set_child, getN_setN_ne _ _ _ hx]

@[simp] theorem data_set_child (h : Heap T) (a : Nat) (c : Option Nat) (x : Nat) :
    (getN (set_child h a c) x).data = (getN h x).data := by
  by_cases hx : x = a
  · subst hx; simp [set_child]
  · simp [set_child, getN_setN_ne _ _ _ hx]

/-! ### Chain lemmas -/

theorem segLinks_nil (h : Heap T) (n : Nat) : segLinks h [] n := trivial

theorem segLinks_cons_iff (h : Heap T) (x : Nat) (xs : List Nat) (n : Nat) :
    segLinks h (x :: xs) n ↔
      (getN h x).right = some (xs.headD n) ∧ segLinks h xs n := by
  simp [segLinks]

theorem headD_append (xs ys : List Nat) (d : Nat) :
    (xs ++ ys).headD d = xs.headD (ys.headD d) := by
  cases xs <;> simp

theorem segLinks_append (h : Heap T) (xs ys : List Nat) (n : Nat) :
    segLinks h (xs ++ ys) n ↔ segLinks h xs (ys.headD n) ∧ segLinks h ys n := by
  induction xs with
  | nil => simp [segLinks]
  | cons x xs ih =>
    simp only [List.cons_append, segLinks, List.append_eq, headD_append, ih, and_assoc]

theorem segLinks_frame {h h' : Heap T} {l : List Nat} {n : Nat}
    (hf : ∀ x ∈ l, (getN h' x).right = (getN h x).right)
    (hs : segLinks h l n) : segLinks h' l n := by
  induction l with
  | nil => trivial
  | cons x xs ih =>
    obtain ⟨hx, hxs⟩ := hs
    exact ⟨(hf x (by simp)).trans hx, ih (fun y hy => hf y (by simp [hy])) hxs⟩

theorem lastOf_cons_cons (x y : Nat) (l : List Nat) :
    lastOf (x :: y :: l) = lastOf (y :: l) := by
  simp [lastOf]

theorem getLast?_eq_lastOf {l : List Nat} (hl : l ≠ []) :
    l.getLast? = some (lastOf l) := by
  have hs := List.getLast?_isSome.2 hl
  cases hg : l.getLast? with
  | none => rw [hg] at hs; simp at hs
  | some a => simp [lastOf, hg]

theorem lastOf_mem {l : List Nat} (hl : l ≠ []) : lastOf l ∈ l := by
  exact List.mem_of_mem_getLast? (by simp [getLast?_eq_lastOf hl])

theorem segLinks_getLast_right {h : Heap T} {l : List Nat} {n : Nat}
    (hs : segLinks h l n) (hl : l ≠ []) :
    (getN h (lastOf l)).right = some n := by
  induction l with
  | nil => exact absurd rfl hl
  | cons x xs ih =>
    obtain ⟨hx, hxs⟩ := hs
    cases xs with
    | nil => simpa [lastOf] using hx
    | cons y ys => rw [lastOf_cons_cons]; exact ih hxs (by simp)

theorem segLinks_retarget {h h' : Heap T} {l : List Nat} {n n' : Nat}
    (hs : segLinks h l n)
    (hinner : ∀ x ∈ l.dropLast, (getN h' x).right = (getN h x).right)
    (hlast : l ≠ [] → (getN h' (lastOf l)).right = some n') :
    segLinks h' l n' := by
  induction l with
  | nil => trivial
  | cons x xs ih =>
    obtain ⟨hx, hxs⟩ := hs
    cases xs with
    | nil =>
      exact ⟨by simpa [lastOf] using hlast (by simp), trivial⟩
    | cons y ys =>
      refine ⟨?_, ih hxs (fun z hz => hinner z (by simp [hz])) ?_⟩
      · have := hinner x (by simp)
        rw [this, hx]; simp
      · intro _
        rw [← lastOf_cons_cons x y ys]
        exact hlast (by simp)

/-! ### childrenOf basics -/

theorem headD_irrel {l : List Nat} (hl : l ≠ []) (d d' : Nat) :
    l.headD d = l.headD d' := by
  cases l with
  | nil => exact absurd rfl hl
  | cons x xs => rfl

theorem lastOf_not_mem_dropLast {l : List Nat} (hnd : l.Nodup) :
    lastOf l ∉ l.dropLast := by
  cases hl : l.eq_nil_or_concat with
  | inl he => simp [he]
  | inr he =>
    obtain ⟨ys, y, rfl⟩ := he
    simp only [List.concat_eq_append] at hnd ⊢
    have hy : lastOf (ys ++ [y]) = y := by simp [lastOf]
    rw [hy, List.dropLast_concat]
    have := List.nodup_append.1 hnd
    intro hmem
    exact (this.2.2 hmem) (by simp)

theorem childrenOf_is_leaf_true {h : Heap T} {a : Nat}
    (hc : childrenOf h a []) : is_leaf h a = true := by
  simp [is_leaf, hc.1]

theorem childrenOf_is_leaf_false {h : Heap T} {a : Nat} {cs : List Nat}
    (hc : childrenOf h a cs) (hne : cs ≠ []) : is_leaf h a = false := by
  simp [is_leaf, hc.1, getLast?_eq_lastOf hne]

theorem childrenOf_tail {h : Heap T} {a : Nat} {cs : List Nat}
    (hc : childrenOf h a cs) (hne : cs ≠ []) :
    tail h a = some (lastOf cs) := by
  rw [tail, hc.1, getLast?_eq_lastOf hne]

theorem childrenOf_head {h : Heap T} {a : Nat} {cs : List Nat}
    (hc : childrenOf h a cs) (hne : cs ≠ []) :
    head h a = some (cs.headD 0) := by
  rw [head, childrenOf_tail hc hne]
  exact segLinks_getLast_right hc.2 hne

/-! ### The iterator walk computes the relational child list -/

theorem chainFrom_eq {h : Heap T} :
    ∀ (rest : List Nat) (c fuel n : Nat), segLinks h (c :: rest) n →
      (c :: rest).Nodup → rest.length < fuel →
      chainFrom h fuel c (lastOf (c :: rest)) = c :: rest := by
  intro rest
  induction rest with
  | nil =>
    intro c fuel n _ _ hfuel
    cases fuel with
    | zero => omega
    | succ f => simp [chainFrom, lastOf]
  | cons d rest ih =>
    intro c fuel n hs hnd hfuel
    cases fuel with
    | zero => omega
    | succ f =>
      obtain ⟨hc, hs'⟩ := hs
      have hstop : lastOf (c :: d :: rest) ∈ (d :: rest) := by
        rw [lastOf_cons_cons]; exact lastOf_mem (by simp)
      have hcne : c ≠ lastOf (c :: d :: rest) := by
        intro he; rw [← he] at hstop; exact (List.nodup_cons.1 hnd).1 hstop
      have hrs : rightStep h c = d := by simp [rightStep, hc, deref]
      rw [lastOf_cons_cons] at hcne
      simp only [chainFrom, hrs, lastOf_cons_cons, if_neg hcne]
      rw [ih d f n hs' (List.nodup_cons.1 hnd).2 (by simpa using hfuel)]

theorem children_eq {h : Heap T} {a : Nat} {cs : List Nat}
    (hc : childrenOf h a cs) (hnd : cs.Nodup) (hlen : cs.length ≤ h.size) :
    children h a = cs := by
  cases cs with
  | nil => simp [children, childrenOf_is_leaf_true hc]
  | cons c rest =>
    have hleaf := childrenOf_is_leaf_false hc (by simp)
    have hh := childrenOf_head hc (by simp)
    have ht := childrenOf_tail hc (by simp)
    have hseg : segLinks h (c :: rest) c := by
      have := hc.2
      simpa using this
    simp only [children, hleaf, Bool.false_eq_true, if_false, hh, ht, deref,
      Option.getD_some, List.headD_cons]
    exact chainFrom_eq rest c h.size c hseg hnd (by simpa using hlen)

/-! ### Unfolding the operations into explicit pointer writes -/

theorem getLast?_append_right {cs : List Nat} (hcs : cs ≠ []) (fs : List Nat) :
    (fs ++ cs).getLast? = cs.getLast? := by
  rw [List.getLast?_append, getLast?_eq_lastOf hcs]
  rfl

theorem headD_append_left {fs : List Nat} (hfs : fs ≠ []) (cs : List Nat) (d : Nat) :
    (fs ++ cs).headD d = fs.headD d := by
  rw [headD_append, headD_irrel hfs]

theorem forest_not_empty {fs : List Nat} (hfs : fs ≠ []) :
    Forest.is_empty ⟨fs.getLast?⟩ = false := by
  simp [Forest.is_empty, getLast?_eq_lastOf hfs]

@[simp] theorem deref_some (x : Nat) : deref (some x) = x := rfl

theorem deref_down {h : Heap T} {a : Nat} {cs : List Nat}
    (hc : childrenOf h a cs) (hcs : cs ≠ []) :
    deref (getN h a).down = lastOf cs := by
  rw [hc.1, getLast?_eq_lastOf hcs]; rfl

theorem deref_getLast? {fs : List Nat} (hfs : fs ≠ []) :
    deref fs.getLast? = lastOf fs := by
  rw [getLast?_eq_lastOf hfs]; rfl

theorem push_front_leaf_eq {h : Heap T} {a : Nat} (hleaf : is_leaf h a = true)
    (t : Tree) : push_front h a t = (set_child h a t.root, ⟨none⟩) := by
  simp [push_front, hleaf, Tree.clear]

theorem push_front_cons_eq {h : Heap T} {a : Nat} {cs : List Nat} {r : Nat}
    (hc : childrenOf h a cs) (hcs : cs ≠ []) :
    push_front h a ⟨some r⟩ =
      (set_sib (set_sib h r (some (cs.headD 0))) (lastOf cs) (some r), ⟨none⟩) := by
  have hleaf := childrenOf_is_leaf_false hc hcs
  have hhead := childrenOf_head hc hcs
  simp only [push_front, hleaf, Bool.false_eq_true, if_false, Tree.clear,
    Tree.set_sib, deref_some, hhead, adopt, tail, down_set_sib,
    deref_down hc hcs]

theorem push_back_leaf_eq {h : Heap T} {a : Nat} (hleaf : is_leaf h a = true)
    (t : Tree) : push_back h a t = (set_child h a t.root, ⟨none⟩) := by
  simp [push_back, hleaf, Tree.clear]

theorem push_back_cons_eq {h : Heap T} {a : Nat} {cs : List Nat} {r : Nat}
    (hc : childrenOf h a cs) (hcs : cs ≠ []) :
    push_back h a ⟨some r⟩ =
      (set_child (set_sib (set_sib h r (some (cs.headD 0))) (lastOf cs) (some r))
        a (some r), ⟨none⟩) := by
  have hleaf := childrenOf_is_leaf_false hc hcs
  have hhead := childrenOf_head hc hcs
  simp only [push_back, hleaf, Bool.false_eq_true, if_false, Tree.clear,
    Tree.set_sib, deref_some, hhead, adopt, tail, down_set_sib,
    deref_down hc hcs]

theorem pop_front_only_eq {h : Heap T} {a c : Nat} (hc : childrenOf h a [c]) :
    pop_front h a = (set_sib (reset_child h a) c (some c), some ⟨some c⟩) := by
  have hleaf := childrenOf_is_leaf_false hc (by simp)
  have hhead := childrenOf_head hc (by simp)
  have htail := childrenOf_tail hc (by simp)
  have honly : has_only_one_child h a = true := by
    simp [has_only_one_child, hhead, htail, lastOf]
  simp only [pop_front, hleaf, Bool.false_eq_true, if_false, honly, if_true,
    hhead, reset_sib, deref, Option.getD_some, List.headD_cons]

theorem pop_front_cons_eq {h : Heap T} {a c : Nat} {cs : List Nat}
    (hc : childrenOf h a (c :: cs)) (hcs : cs ≠ []) (hnd : (c :: cs).Nodup) :
    pop_front h a =
      (set_sib (set_sib h (lastOf cs) (some (cs.headD 0))) c (some c),
        some ⟨some c⟩) := by
  have hleaf := childrenOf_is_leaf_false hc (by simp)
  have hhead := childrenOf_head hc (by simp)
  have htail := childrenOf_tail hc (by simp)
  have hlast : lastOf (c :: cs) = lastOf cs := by
    cases cs with
    | nil => exact absurd rfl hcs
    | cons d ds => exact lastOf_cons_cons c d ds
  have hcl : c ≠ lastOf cs := by
    intro he
    exact (List.nodup_cons.1 hnd).1 (he ▸ lastOf_mem hcs)
  have honly : has_only_one_child h a = false := by
    simp [has_only_one_child, hhead, htail, hlast]
    exact hcl
  have hnh : new_head h a = some (cs.headD 0) := by
    have hseg := hc.2
    rw [List.headD_cons] at hseg
    have := hseg.1
    rw [new_head, hhead]
    simp only [List.headD_cons, deref, Option.getD_some]
    rw [this, headD_irrel hcs]
  simp only [pop_front, hleaf, Bool.false_eq_true, if_false, honly, if_true,
    hhead, htail, hlast, hnh, reset_sib, deref, Option.getD_some,
    List.headD_cons]

theorem prepend_leaf_eq {h : Heap T} {a : Nat} {fs : List Nat}
    (hleaf : is_leaf h a = true) (hfs : fs ≠ []) :
    prepend h a ⟨fs.getLast?⟩ = (set_child h a fs.getLast?, ⟨none⟩) := by
  simp [prepend, forest_not_empty hfs, hleaf, Forest.tail, Forest.clear]

theorem prepend_cons_eq {h : Heap T} {a : Nat} {cs fs : List Nat}
    (hc : childrenOf h a cs) (hcs : cs ≠ []) (hfs : fs ≠ [])
    (hring : segLinks h fs (fs.headD 0)) :
    prepend h a ⟨fs.getLast?⟩ =
      (set_sib (set_sib h (lastOf fs) (some (cs.headD 0)))
        (lastOf cs) (some (fs.headD 0)), ⟨none⟩) := by
  have hleaf := childrenOf_is_leaf_false hc hcs
  have hhead := childrenOf_head hc hcs
  have hfhead : Forest.head h (⟨fs.getLast?⟩ : Forest) = some (fs.headD 0) := by
    rw [Forest.head]
    simp only [deref_getLast? hfs]
    exact segLinks_getLast_right hring hfs
  simp only [prepend, forest_not_empty hfs, Bool.false_eq_true, if_false,
    hleaf, Forest.clear, Forest.set_sib, deref_getLast? hfs,
    hhead, hfhead, adopt, tail, down_set_sib, deref_down hc hcs]

theorem append_leaf_eq {h : Heap T} {a : Nat} {fs : List Nat}
    (hleaf : is_leaf h a = true) (hfs : fs ≠ []) :
    append h a ⟨fs.getLast?⟩ = (set_child h a fs.getLast?, ⟨none⟩) := by
  simp [append, forest_not_empty hfs, hleaf, Forest.tail, Forest.clear]

theorem append_cons_eq {h : Heap T} {a : Nat} {cs fs : List Nat}
    (hc : childrenOf h a cs) (hcs : cs ≠ []) (hfs : fs ≠ [])
    (hring : segLinks h fs (fs.headD 0)) :
    append h a ⟨fs.getLast?⟩ =
      (set_child (set_sib (set_sib h (lastOf fs) (some (cs.headD 0)))
        (lastOf cs) (some (fs.headD 0))) a fs.getLast?, ⟨none⟩) := by
  have hleaf := childrenOf_is_leaf_false hc hcs
  have hhead := childrenOf_head hc hcs
  have hfhead : Forest.head h (⟨fs.getLast?⟩ : Forest) = some (fs.headD 0) := by
    rw [Forest.head]
    simp only [deref_getLast? hfs]
    exact segLinks_getLast_right hring hfs
  simp only [append, forest_not_empty hfs, Bool.false_eq_true, if_false,
    hleaf, Forest.clear, Forest.tail, Forest.set_sib, deref_getLast? hfs,
    hhead, hfhead, adopt, tail, down_set_sib, deref_down hc hcs]

theorem pop_front_leaf_eq {h : Heap T} {a : Nat} (hleaf : is_leaf h a = true) :
    pop_front h a = (h, none) := by
  simp [pop_front, hleaf]

theorem prepend_empty_eq (h : Heap T) (a : Nat) :
    prepend h a ⟨none⟩ = (h, ⟨none⟩) := by
  simp [prepend, Forest.is_empty]

theorem append_empty_eq (h : Heap T) (a : Nat) :
    append h a ⟨none⟩ = (h, ⟨none⟩) := by
  simp [append, Forest.is_empty]

theorem make_node_addr (h : Heap T) (d : T) : (make_node h d).2 = h.size := rfl

theorem make_node_size (h : Heap T) (d : T) :
    (make_node h d).1.size = h.size + 1 := rfl

theorem getN_make_node_same (h : Heap T) (d : T) :
    getN (make_node h d).1 h.size = ⟨none, some h.size, d⟩ := by
  simp [make_node, reset_sib, set_sib, setN, getN]

theorem getN_make_node_ne (h : Heap T) (d : T) {x : Nat} (hx : x ≠ h.size) :
    getN (make_node h d).1 x = getN h x := by
  simp [make_node, reset_sib, set_sib, setN, getN,
    Function.update_noteq hx]

/-! ### What each operation does to the child list -/

theorem prepend_childrenOf {h : Heap T} {a : Nat} {cs fs : List Nat}
    (hc : childrenOf h a cs) (hfs : fs ≠ [])
    (hring : segLinks h fs (fs.headD 0)) (hnd : (fs ++ cs).Nodup) :
    childrenOf (prepend h a ⟨fs.getLast?⟩).1 a (fs ++ cs) := by
  by_cases hcse : cs = []
  · subst hcse
    rw [prepend_leaf_eq (childrenOf_is_leaf_true hc) hfs]
    refine ⟨by simp, ?_⟩
    simp only [List.append_nil]
    exact segLinks_frame (fun x _ => right_set_child h a fs.getLast? x) hring
  · rw [prepend_cons_eq hc hcse hfs hring]
    have hndfs : fs.Nodup := (List.nodup_append.1 hnd).1
    have hndcs : cs.Nodup := (List.nodup_append.1 hnd).2.1
    have hdisj : fs.Disjoint cs := (List.nodup_append.1 hnd).2.2
    have hfc : lastOf fs ≠ lastOf cs :=
      fun he => hdisj (lastOf_mem hfs) (he ▸ lastOf_mem hcse)
    refine ⟨?_, ?_⟩
    · rw [down_set_sib, down_set_sib, hc.1, getLast?_append_right hcse]
    · rw [headD_append_left hfs, segLinks_append]
      constructor
      · rw [show cs.headD (fs.headD 0) = cs.headD 0 from headD_irrel hcse _ _]
        apply segLinks_retarget hring
        · intro x hx
          have hx1 : x ≠ lastOf fs :=
            fun he => lastOf_not_mem_dropLast hndfs (he ▸ hx)
          have hx2 : x ≠ lastOf cs := fun he =>
            hdisj (List.dropLast_subset fs hx) (he ▸ lastOf_mem hcse)
          rw [right_set_sib_ne _ _ _ hx2, right_set_sib_ne _ _ _ hx1]
        · intro _
          rw [right_set_sib_ne _ _ _ hfc, right_set_sib_same]
      · apply segLinks_retarget hc.2
        · intro x hx
          have hx1 : x ≠ lastOf cs :=
            fun he => lastOf_not_mem_dropLast hndcs (he ▸ hx)
          have hx2 : x ≠ lastOf fs := fun he =>
            hdisj (by rw [he]; exact lastOf_mem hfs) (List.dropLast_subset cs hx)
          rw [right_set_sib_ne _ _ _ hx1, right_set_sib_ne _ _ _ hx2]
        · intro _
          rw [right_set_sib_same]

theorem append_childrenOf {h : Heap T} {a : Nat} {cs fs : List Nat}
    (hc : childrenOf h a cs) (hfs : fs ≠ [])
    (hring : segLinks h fs (fs.headD 0)) (hnd : (cs ++ fs).Nodup) :
    childrenOf (append h a ⟨fs.getLast?⟩).1 a (cs ++ fs) := by
  by_cases hcse : cs = []
  · subst hcse
    rw [append_leaf_eq (childrenOf_is_leaf_true hc) hfs]
    refine ⟨by simp, ?_⟩
    simp only [List.nil_append]
    exact segLinks_frame (fun x _ => right_set_child h a fs.getLast? x) hring
  · rw [append_cons_eq hc hcse hfs hring]
    have hndcs : cs.Nodup := (List.nodup_append.1 hnd).1
    have hndfs : fs.Nodup := (List.nodup_append.1 hnd).2.1
    have hdisj : cs.Disjoint fs := (List.nodup_append.1 hnd).2.2
    have hfc : lastOf cs ≠ lastOf fs :=
      fun he => hdisj (lastOf_mem hcse) (he ▸ lastOf_mem hfs)
    refine ⟨?_, ?_⟩
    · rw [down_set_child_same, getLast?_append_right hfs]
    · rw [headD_append_left hcse, segLinks_append]
      constructor
      · rw [show fs.headD (cs.headD 0) = fs.headD 0 from headD_irrel hfs _ _]
        apply segLinks_retarget hc.2
        · intro x hx
          have hx1 : x ≠ lastOf cs :=
            fun he => lastOf_not_mem_dropLast hndcs (he ▸ hx)
          have hx2 : x ≠ lastOf fs := fun he =>
            hdisj (List.dropLast_subset cs hx) (he ▸ lastOf_mem hfs)
          rw [right_set_child, right_set_sib_ne _ _ _ hx1,
            right_set_sib_ne _ _ _ hx2]
        · intro _
          rw [right_set_child, right_set_sib_same]
      · apply segLinks_retarget hring
        · intro x hx
          have hx1 : x ≠ lastOf fs :=
            fun he => lastOf_not_mem_dropLast hndfs (he ▸ hx)
          have hx2 : x ≠ lastOf cs := fun he =>
            hdisj (lastOf_mem hcse) (by rw [← he]; exact List.dropLast_subset fs hx)
          rw [right_set_child, right_set_sib_ne _ _ _ hx2,
            right_set_sib_ne _ _ _ hx1]
        · intro _
          rw [right_set_child, right_set_sib_ne _ _ _ hfc.symm,
            right_set_sib_same]

theorem push_front_eq_prepend {h : Heap T} {a r : Nat}
    (hr : (getN h r).right = some r) :
    (push_front h a ⟨some r⟩).1 = (prepend h a ⟨some r⟩).1 := by
  by_cases hleaf : is_leaf h a = true
  · simp [push_front, prepend, hleaf, Forest.is_empty, Forest.tail]
  · simp only [Bool.not_eq_true] at hleaf
    simp [push_front, prepend, hleaf, Forest.is_empty, Forest.set_sib,
      Forest.head, Tree.set_sib, hr]

theorem push_back_eq_append {h : Heap T} {a r : Nat}
    (hr : (getN h r).right = some r) :
    (push_back h a ⟨some r⟩).1 = (append h a ⟨some r⟩).1 := by
  by_cases hleaf : is_leaf h a = true
  · simp [push_back, append, hleaf, Forest.is_empty, Forest.tail]
  · simp only [Bool.not_eq_true] at hleaf
    simp [push_back, append, hleaf, Forest.is_empty, Forest.set_sib,
      Forest.head, Forest.tail, Tree.set_sib, hr]

theorem singleton_ring {h : Heap T} {r : Nat} (hr : (getN h r).right = some r) :
    segLinks h [r] ([r].headD 0) := by
  simp [segLinks, hr]

theorem push_front_childrenOf {h : Heap T} {a : Nat} {cs : List Nat} {r : Nat}
    (hc : childrenOf h a cs) (hr : (getN h r).right = some r)
    (hnd : (r :: cs).Nodup) :
    childrenOf (push_front h a ⟨some r⟩).1 a (r :: cs) := by
  rw [push_front_eq_prepend hr]
  have := @prepend_childrenOf T h a cs [r] hc (by simp) (singleton_ring hr)
    (by simpa using hnd)
  simpa using this

theorem push_back_childrenOf {h : Heap T} {a : Nat} {cs : List Nat} {r : Nat}
    (hc : childrenOf h a cs) (hr : (getN h r).right = some r)
    (hnd : (cs ++ [r]).Nodup) :
    childrenOf (push_back h a ⟨some r⟩).1 a (cs ++ [r]) := by
  rw [push_back_eq_append hr]
  exact @append_childrenOf T h a cs [r] hc (by simp) (singleton_ring hr) hnd

theorem pop_front_childrenOf {h : Heap T} {a c : Nat} {cs : List Nat}
    (hc : childrenOf h a (c :: cs)) (hnd : (c :: cs).Nodup) :
    (pop_front h a).2 = some ⟨some c⟩ ∧
      childrenOf (pop_front h a).1 a cs ∧
      (getN (pop_front h a).1 c).right = some c := by
  by_cases hcse : cs = []
  · subst hcse
    rw [pop_front_only_eq hc]
    refine ⟨rfl, ⟨?_, trivial⟩, ?_⟩
    · rw [down_set_sib]
      simp [reset_child]
    · rw [right_set_sib_same]
  · rw [pop_front_cons_eq hc hcse hnd]
    have hcl : c ≠ lastOf cs := fun he =>
      (List.nodup_cons.1 hnd).1 (he ▸ lastOf_mem hcse)
    have hndcs : cs.Nodup := (List.nodup_cons.1 hnd).2
    have hcmem : c ∉ cs := (List.nodup_cons.1 hnd).1
    refine ⟨rfl, ⟨?_, ?_⟩, ?_⟩
    · rw [down_set_sib, down_set_sib, hc.1]
      rw [getLast?_eq_lastOf (l := c :: cs) (by simp),
        getLast?_eq_lastOf hcse]
      cases cs with
      | nil => exact absurd rfl hcse
      | cons d ds => rw [lastOf_cons_cons]
    · have hseg : segLinks h cs c := by
        have := hc.2
        rw [List.headD_cons] at this
        exact this.2
      apply segLinks_retarget hseg
      · intro x hx
        have hx1 : x ≠ lastOf cs :=
          fun he => lastOf_not_mem_dropLast hndcs (he ▸ hx)
        have hx2 : x ≠ c := fun he =>
          hcmem (he ▸ List.dropLast_subset cs hx)
        rw [right_set_sib_ne _ _ _ hx2, right_set_sib_ne _ _ _ hx1]
      · intro _
        rw [right_set_sib_ne _ _ _ hcl.symm, right_set_sib_same]
    · rw [right_set_sib_same]

/-! ### Global states: sibling rings and well-formedness -/

/-- One sibling ring of the global state: `owner = some p` when the ring
is the children list of node `p`; `none` for a top-level standalone tree
(singleton ring) or forest chain.  `members` lists the ring's nodes in
left-to-right order. -/
structure SibRing where
  owner : Option Nat
  members : List Nat
deriving DecidableEq

/-- All live addresses of a ring list. -/
def ringJoin (rs : List SibRing) : List Nat := (rs.map SibRing.members).flatten

/-- Well-formedness of a global state `(h, rs)`: the rings partition the
live addresses; each ring is a nonempty circular `right`-chain; a ring's
owner's `down` is the ring's last member; owners are unique; a node with
non-null `down` owns a ring; every address is allocated. -/
def WFf (h : Heap T) (rs : List SibRing) : Prop :=
  (∀ r ∈ rs, r.members ≠ []) ∧
  (∀ r ∈ rs, segLinks h r.members (r.members.headD 0)) ∧
  (ringJoin rs).Nodup ∧
  (∀ r ∈ rs, ∀ m ∈ r.members, m < h.size) ∧
  (∀ r ∈ rs, ∀ p ∈ r.owner.toList, (getN h p).down = r.members.getLast?) ∧
  (∀ r1 ∈ rs, ∀ r2 ∈ rs, ∀ p ∈ r1.owner.toList, r2.owner = some p → r1 = r2) ∧
  (∀ p ∈ ringJoin rs, (getN h p).down ≠ none → ∃ r ∈ rs, r.owner = some p) ∧
  (∀ r ∈ rs, ∀ p ∈ r.owner.toList, p < h.size)

instance instDecWFf (h : Heap T) (rs : List SibRing) : Decidable (WFf h rs) :=
  decidable_of_iff
    ((∀ r ∈ rs, r.members ≠ []) ∧
      (∀ r ∈ rs, segLinks h r.members (r.members.headD 0)) ∧
      (ringJoin rs).Nodup ∧
      (∀ r ∈ rs, ∀ m ∈ r.members, m < h.size) ∧
      (∀ r ∈ rs, ∀ p ∈ r.owner.toList, (getN h p).down = r.members.getLast?) ∧
      (∀ r1 ∈ rs, ∀ r2 ∈ rs, ∀ p ∈ r1.owner.toList,
        r2.owner = some p → r1 = r2) ∧
      (∀ p ∈ ringJoin rs, (getN h p).down ≠ none →
        ∃ r ∈ rs, r.owner = some p) ∧
      (∀ r ∈ rs, ∀ p ∈ r.owner.toList, p < h.size))
    Iff.rfl

theorem mem_ringJoin_iff {rs : List SibRing} {m : Nat} :
    m ∈ ringJoin rs ↔ ∃ r ∈ rs, m ∈ r.members := by
  simp [ringJoin, List.mem_flatten]

theorem ringJoin_cons (r : SibRing) (rs : List SibRing) :
    ringJoin (r :: rs) = r.members ++ ringJoin rs := by
  simp [ringJoin]

theorem WFf_perm {h : Heap T} {rs rs' : List SibRing}
    (hw : WFf h rs) (hp : rs.Perm rs') : WFf h rs' := by
  obtain ⟨w1, w2, w3, w4, w5, w6, w7, w8⟩ := hw
  refine ⟨?_, ?_, ?_, ?_, ?_, ?_, ?_, ?_⟩
  · exact fun r hr => w1 r (hp.mem_iff.2 hr)
  · exact fun r hr => w2 r (hp.mem_iff.2 hr)
  · exact ((hp.map SibRing.members).flatten.nodup_iff).1 w3
  · exact fun r hr => w4 r (hp.mem_iff.2 hr)
  · exact fun r hr => w5 r (hp.mem_iff.2 hr)
  · exact fun r1 h1 r2 h2 => w6 r1 (hp.mem_iff.2 h1) r2 (hp.mem_iff.2 h2)
  · intro p hpm hd
    obtain ⟨r, hr, ho⟩ :=
      w7 p (((hp.map SibRing.members).flatten.mem_iff).2 hpm) hd
    exact ⟨r, hp.mem_iff.1 hr, ho⟩
  · exact fun r hr => w8 r (hp.mem_iff.2 hr)

/-- If the front ring is owned by `a`, no ring of the rest is. -/
theorem rest_no_owner {h : Heap T} {b : SibRing} {rest : List SibRing} {a : Nat}
    (hw : WFf h (b :: rest)) (hb : b.owner = some a) :
    ∀ r ∈ rest, r.owner ≠ some a := by
  intro r hr ho
  obtain ⟨w1, _, w3, _, _, w6, _, _⟩ := hw
  have : r = b := by
    refine w6 r (by simp [hr]) b (by simp) a ?_ hb
    simp [ho]
  subst this
  rw [ringJoin_cons, List.nodup_append] at w3
  have hne := w1 r (by simp)
  have hmem : ∀ x ∈ r.members, x ∈ ringJoin rest :=
    fun x hx => mem_ringJoin_iff.2 ⟨r, hr, hx⟩
  cases hm : r.members with
  | nil => exact hne hm
  | cons x xs =>
    exact w3.2.2 (by rw [hm]; simp) (hmem x (by rw [hm]; simp))

/-- A leafless node owns no ring. -/
theorem no_owner_of_leaf {h : Heap T} {rs : List SibRing} {a : Nat}
    (hw : WFf h rs) (hleaf : is_leaf h a = true) :
    ∀ r ∈ rs, r.owner ≠ some a := by
  intro r hr ho
  obtain ⟨w1, _, _, _, w5, _, _, _⟩ := hw
  have hd := w5 r hr a (by simp [ho])
  rw [getLast?_eq_lastOf (w1 r hr)] at hd
  rw [is_leaf, hd] at hleaf
  simp at hleaf

/-! ### Circular traversal facts -/

theorem segLinks_iterate {h : Heap T} :
    ∀ (xs : List Nat) (x n : Nat), segLinks h (x :: xs) n →
      ((List.range (xs.length + 1)).map fun k => (rightStep h)^[k] x) = x :: xs ∧
      (rightStep h)^[xs.length + 1] x = n := by
  intro xs
  induction xs with
  | nil =>
    intro x n hs
    refine ⟨by simp, ?_⟩
    have hx : (getN h x).right = some n := by simpa [segLinks] using hs.1
    simp [rightStep, hx]
  | cons y ys ih =>
    intro x n hs
    obtain ⟨hx, hs'⟩ := hs
    have hstep : rightStep h x = y := by
      simp [rightStep, hx]
    obtain ⟨ihm, ihit⟩ := ih y n hs'
    constructor
    · rw [List.range_succ_eq_map, List.map_cons, List.map_map]
      have hcomp : ((fun k => (rightStep h)^[k] x) ∘ Nat.succ) =
          fun k => (rightStep h)^[k] y := by
        funext k
        simp only [Function.comp_apply, Function.iterate_succ_apply, hstep]
      rw [hcomp]
      simp only [List.length_cons]
      rw [ihm]
      simp
    · simp only [List.length_cons]
      rw [Function.iterate_succ_apply, hstep]
      exact ihit

theorem segLinks_rotate {h : Heap T} {u v : List Nat} {n : Nat}
    (hs : segLinks h (u ++ n :: v) ((u ++ n :: v).headD 0)) :
    segLinks h (n :: (v ++ u)) n := by
  cases u with
  | nil => simpa using hs
  | cons w u' =>
    rw [segLinks_append] at hs
    rw [show (n :: (v ++ (w :: u'))) = (n :: v) ++ (w :: u') from by simp,
      segLinks_append]
    refine ⟨?_, ?_⟩
    · simpa using hs.2
    · simpa using hs.1

/-- The node-level circular-chain properties of any member of a
well-formed sibling ring: non-null `right`, self-pointing iff alone, and
the `right`-walk enumerates the ring in left-to-right order starting at
the member, returning to it after exactly one lap. -/
theorem ring_node_props {h : Heap T} {ms : List Nat}
    (hs : segLinks h ms (ms.headD 0)) (hnd : ms.Nodup) {n : Nat}
    (hn : n ∈ ms) :
    (getN h n).right ≠ none ∧
    ((getN h n).right = some n ↔ ms.length = 1) ∧
    ∃ u v, ms = u ++ n :: v ∧
      ((List.range ms.length).map fun k => (rightStep h)^[k] n) = n :: (v ++ u) ∧
      (rightStep h)^[ms.length] n = n := by
  obtain ⟨u, v, rfl⟩ := List.append_of_mem hn
  have hrot := segLinks_rotate hs
  have hlen : (u ++ n :: v).length = (v ++ u).length + 1 := by
    simp; omega
  obtain ⟨hmap, hit⟩ := segLinks_iterate (v ++ u) n n hrot
  have hnvu : n ∉ v ++ u := by
    rw [List.nodup_append] at hnd
    have h1 : n ∉ u := fun hm => hnd.2.2 hm (by simp)
    have h2 : n ∉ v := (List.nodup_cons.1 hnd.2.1).1
    simp [h1, h2]
  refine ⟨?_, ?_, u, v, rfl, ?_, ?_⟩
  · rw [hrot.1]; simp
  · constructor
    · intro hself
      cases hvu : v ++ u with
      | nil =>
        obtain ⟨hv, hu⟩ := List.append_eq_nil.1 hvu
        subst hv; subst hu
        simp
      | cons w t =>
        have hw : (getN h n).right = some w := by
          have := hrot.1
          rw [hvu] at this
          simpa using this
        rw [hw] at hself
        have : w = n := by simpa using hself
        subst this
        exact absurd (by rw [hvu]; simp) hnvu
    · intro hlen1
      rw [List.length_append, List.length_cons] at hlen1
      have hu : u = [] := List.length_eq_zero.1 (by omega)
      have hv : v = [] := List.length_eq_zero.1 (by omega)
      subst hu; subst hv
      simpa [segLinks] using hrot.1
  · rw [hlen]; exact hmap
  · rw [hlen]; exact hit

/-! ### The public operations as a step relation on global states -/

/-- One application of a public operation (`allocate`, `push_front`,
`push_back`, `pop_front`, `prepend`, `append`) to a global state.  Each
constructor pulls the rings the operation touches to the front (modulo
permutation), requires the target node `a` to be live, applies the
source operation's heap transformation, and records the new rings. -/
inductive Step : Heap T → List SibRing → Heap T → List SibRing → Prop where
  | alloc (h : Heap T) (rs : List SibRing) (d : T) :
      Step h rs (make_node h d).1 (⟨none, [(make_node h d).2]⟩ :: rs)
  | pushFrontLeaf (h : Heap T) (rs rest : List SibRing) (a r : Nat) :
      rs.Perm (⟨none, [r]⟩ :: rest) → a ∈ ringJoin rest → is_leaf h a = true →
      Step h rs (push_front h a ⟨some r⟩).1 (⟨some a, [r]⟩ :: rest)
  | pushFrontCons (h : Heap T) (rs rest : List SibRing) (a r : Nat)
      (cs : List Nat) :
      rs.Perm (⟨none, [r]⟩ :: ⟨some a, cs⟩ :: rest) →
      a ∈ ringJoin (⟨some a, cs⟩ :: rest) →
      Step h rs (push_front h a ⟨some r⟩).1 (⟨some a, r :: cs⟩ :: rest)
  | pushBackLeaf (h : Heap T) (rs rest : List SibRing) (a r : Nat) :
      rs.Perm (⟨none, [r]⟩ :: rest) → a ∈ ringJoin rest → is_leaf h a = true →
      Step h rs (push_back h a ⟨some r⟩).1 (⟨some a, [r]⟩ :: rest)
  | pushBackCons (h : Heap T) (rs rest : List SibRing) (a r : Nat)
      (cs : List Nat) :
      rs.Perm (⟨none, [r]⟩ :: ⟨some a, cs⟩ :: rest) →
      a ∈ ringJoin (⟨some a, cs⟩ :: rest) →
      Step h rs (push_back h a ⟨some r⟩).1 (⟨some a, cs ++ [r]⟩ :: rest)
  | popOnly (h : Heap T) (rs rest : List SibRing) (a c : Nat) :
      rs.Perm (⟨some a, [c]⟩ :: rest) → a ∈ ringJoin rs →
      Step h rs (pop_front h a).1 (⟨none, [c]⟩ :: rest)
  | popCons (h : Heap T) (rs rest : List SibRing) (a c : Nat) (cs : List Nat) :
      cs ≠ [] → rs.Perm (⟨some a, c :: cs⟩ :: rest) → a ∈ ringJoin rs →
      Step h rs (pop_front h a).1 (⟨none, [c]⟩ :: ⟨some a, cs⟩ :: rest)
  | prependLeaf (h : Heap T) (rs rest : List SibRing) (a : Nat) (fs : List Nat) :
      fs ≠ [] → rs.Perm (⟨none, fs⟩ :: rest) → a ∈ ringJoin rest →
      is_leaf h a = true →
      Step h rs (prepend h a ⟨fs.getLast?⟩).1 (⟨some a, fs⟩ :: rest)
  | prependCons (h : Heap T) (rs rest : List SibRing) (a : Nat)
      (fs cs : List Nat) :
      fs ≠ [] → rs.Perm (⟨none, fs⟩ :: ⟨some a, cs⟩ :: rest) →
      a ∈ ringJoin (⟨some a, cs⟩ :: rest) →
      Step h rs (prepend h a ⟨fs.getLast?⟩).1 (⟨some a, fs ++ cs⟩ :: rest)
  | appendLeaf (h : Heap T) (rs rest : List SibRing) (a : Nat) (fs : List Nat) :
      fs ≠ [] → rs.Perm (⟨none, fs⟩ :: rest) → a ∈ ringJoin rest →
      is_leaf h a = true →
      Step h rs (append h a ⟨fs.getLast?⟩).1 (⟨some a, fs⟩ :: rest)
  | appendCons (h : Heap T) (rs rest : List SibRing) (a : Nat)
      (fs cs : List Nat) :
      fs ≠ [] → rs.Perm (⟨none, fs⟩ :: ⟨some a, cs⟩ :: rest) →
      a ∈ ringJoin (⟨some a, cs⟩ :: rest) →
      Step h rs (append h a ⟨fs.getLast?⟩).1 (⟨some a, cs ++ fs⟩ :: rest)

/-- Finitely many steps. -/
inductive Steps : Heap T → List SibRing → Heap T → List SibRing → Prop where
  | refl (h : Heap T) (rs : List SibRing) : Steps h rs h rs
  | tail {h0 rs0 h1 rs1 h2 rs2} : Steps h0 rs0 h1 rs1 →
      Step h1 rs1 h2 rs2 → Steps h0 rs0 h2 rs2

theorem bounded_of_mem_ringJoin {h : Heap T} {rs : List SibRing} {m : Nat}
    (hw : WFf h rs) (hm : m ∈ ringJoin rs) : m < h.size := by
  obtain ⟨r, hr, hmr⟩ := mem_ringJoin_iff.1 hm
  exact hw.2.2.2.1 r hr m hmr

theorem WF_alloc {h : Heap T} {rs : List SibRing} (hw : WFf h rs) (d : T) :
    WFf (make_node h d).1 (⟨none, [(make_node h d).2]⟩ :: rs) := by
  obtain ⟨w1, w2, w3, w4, w5, w6, w7, w8⟩ := hw
  have hfr : ∀ x, x < h.size → getN (make_node h d).1 x = getN h x :=
    fun x hx => getN_make_node_ne h d (by omega)
  have hmem_lt : ∀ x ∈ ringJoin rs, x < h.size := by
    intro x hx
    obtain ⟨r, hr, hxr⟩ := mem_ringJoin_iff.1 hx
    exact w4 r hr x hxr
  rw [make_node_addr]
  refine ⟨?_, ?_, ?_, ?_, ?_, ?_, ?_, ?_⟩
  · intro r hr
    rcases List.mem_cons.1 hr with rfl | hr
    · simp
    · exact w1 r hr
  · intro r hr
    rcases List.mem_cons.1 hr with rfl | hr
    · refine ⟨?_, trivial⟩
      rw [getN_make_node_same]
      simp
    · refine segLinks_frame ?_ (w2 r hr)
      intro x hx
      rw [hfr x (w4 r hr x hx)]
  · rw [ringJoin_cons]
    simp only [List.singleton_append, List.nodup_cons]
    exact ⟨fun hmem => absurd (hmem_lt _ hmem) (by omega), w3⟩
  · intro r hr m hm
    rcases List.mem_cons.1 hr with rfl | hr
    · simp only [List.mem_singleton] at hm
      rw [hm, make_node_size]; omega
    · rw [make_node_size]
      exact Nat.lt_succ_of_lt (w4 r hr m hm)
  · intro r hr p hp
    rcases List.mem_cons.1 hr with rfl | hr
    · simp at hp
    · rw [hfr p (w8 r hr p hp)]
      exact w5 r hr p hp
  · intro r1 h1 r2 h2 p hp ho
    rcases List.mem_cons.1 h1 with rfl | h1
    · simp at hp
    · rcases List.mem_cons.1 h2 with rfl | h2
      · simp at ho
      · exact w6 r1 h1 r2 h2 p hp ho
  · intro p hpm hd
    rw [ringJoin_cons] at hpm
    simp only [List.singleton_append, List.mem_cons] at hpm
    cases hpm with
    | inl he =>
      rw [he, getN_make_node_same] at hd
      simp at hd
    | inr hpm =>
      rw [hfr p (hmem_lt p hpm)] at hd
      obtain ⟨r, hr, ho⟩ := w7 p hpm hd
      exact ⟨r, by simp [hr], ho⟩
  · intro r hr p hp
    rcases List.mem_cons.1 hr with rfl | hr
    · simp at hp
    · rw [make_node_size]
      exact Nat.lt_succ_of_lt (w8 r hr p hp)

/-- Splicing a forest ring under a leafless live node `a` preserves
well-formedness (the common core of `prepend`/`append`/`push_front`/
`push_back` in their leafless branch: the heap change is exactly
`down a := fs.getLast?`). -/
theorem WF_set_child_leaf {h : Heap T} {rest : List SibRing} {a : Nat}
    {fs : List Nat} (hw : WFf h (⟨none, fs⟩ :: rest)) (hfs : fs ≠ [])
    (ha : a ∈ ringJoin rest) (hleaf : is_leaf h a = true) :
    WFf (set_child h a fs.getLast?) (⟨some a, fs⟩ :: rest) := by
  obtain ⟨w1, w2, w3, w4, w5, w6, w7, w8⟩ := hw
  have hno : ∀ r ∈ (⟨none, fs⟩ : SibRing) :: rest, r.owner ≠ some a :=
    no_owner_of_leaf ⟨w1, w2, w3, w4, w5, w6, w7, w8⟩ hleaf
  have halt : a < h.size := by
    obtain ⟨r, hr, har⟩ := mem_ringJoin_iff.1 ha
    exact w4 r (by simp [hr]) a har
  refine ⟨?_, ?_, ?_, ?_, ?_, ?_, ?_, ?_⟩
  · intro r hr
    rcases List.mem_cons.1 hr with rfl | hr
    · exact hfs
    · exact w1 r (by simp [hr])
  · intro r hr
    rcases List.mem_cons.1 hr with rfl | hr
    · exact segLinks_frame (fun x _ => right_set_child h a _ x)
        (w2 ⟨none, fs⟩ (by simp))
    · exact segLinks_frame (fun x _ => right_set_child h a _ x)
        (w2 r (by simp [hr]))
  · rw [ringJoin_cons]
    rw [ringJoin_cons] at w3
    exact w3
  · intro r hr m hm
    rw [size_set_child]
    rcases List.mem_cons.1 hr with rfl | hr
    · exact w4 ⟨none, fs⟩ (by simp) m hm
    · exact w4 r (by simp [hr]) m hm
  · intro r hr p hp
    rcases List.mem_cons.1 hr with rfl | hr
    · simp only [Option.toList_some, List.mem_singleton] at hp
      rw [hp, down_set_child_same]
    · have hpa : p ≠ a := by
        intro he
        apply hno r (by simp [hr])
        cases hor : r.owner with
        | none => rw [hor] at hp; simp at hp
        | some q =>
          rw [hor] at hp
          simp only [Option.toList_some, List.mem_singleton] at hp
          rw [← hp, he]
      rw [down_set_child_ne h a _ hpa]
      exact w5 r (by simp [hr]) p hp
  · intro r1 h1 r2 h2 p hp ho
    rcases List.mem_cons.1 h1 with rfl | h1
    · simp only [Option.toList_some, List.mem_singleton] at hp
      subst hp
      rcases List.mem_cons.1 h2 with rfl | h2
      · rfl
      · exact absurd ho (hno r2 (by simp [h2]))
    · rcases List.mem_cons.1 h2 with rfl | h2
      · simp only at ho
        rw [Option.some_inj] at ho
        have : p ∈ r1.owner.toList := hp
        cases hor : r1.owner with
        | none => rw [hor] at this; simp at this
        | some q =>
          rw [hor] at this
          simp only [Option.toList_some, List.mem_singleton] at this
          exact absurd (by rw [hor, ← this, ho]) (hno r1 (by simp [h1]))
      · exact w6 r1 (by simp [h1]) r2 (by simp [h2]) p hp ho
  · intro p hpm hd
    by_cases hpa : p = a
    · exact ⟨⟨some a, fs⟩, by simp, by rw [hpa]⟩
    · rw [down_set_child_ne h a _ hpa] at hd
      have hpm' : p ∈ ringJoin ((⟨none, fs⟩ : SibRing) :: rest) := by
        rw [ringJoin_cons]
        rw [ringJoin_cons] at hpm
        exact hpm
      obtain ⟨r, hr, ho⟩ := w7 p hpm' hd
      rcases List.mem_cons.1 hr with rfl | hr
      · simp at ho
      · exact ⟨r, by simp [hr], ho⟩
  · intro r hr p hp
    rw [size_set_child]
    rcases List.mem_cons.1 hr with rfl | hr
    · simp only [Option.toList_some, List.mem_singleton] at hp
      rw [hp]; exact halt
    · exact w8 r (by simp [hr]) p hp

theorem owner_eq_of_mem_toList {o : Option Nat} {p : Nat}
    (hp : p ∈ o.toList) : o = some p := by
  cases o <;> simp_all

theorem WF_prependCons {h : Heap T} {rest : List SibRing} {a : Nat}
    {fs cs : List Nat}
    (hw : WFf h (⟨none, fs⟩ :: ⟨some a, cs⟩ :: rest)) (hfs : fs ≠ [])
    (ha : a ∈ ringJoin (⟨some a, cs⟩ :: rest)) :
    WFf (prepend h a ⟨fs.getLast?⟩).1 (⟨some a, fs ++ cs⟩ :: rest) := by
  obtain ⟨w1, w2, w3, w4, w5, w6, w7, w8⟩ := hw
  have hcs : cs ≠ [] := by simpa using w1 ⟨some a, cs⟩ (by simp)
  have hring : segLinks h fs (fs.headD 0) := by
    simpa using w2 ⟨none, fs⟩ (by simp)
  have hc : childrenOf h a cs := by
    refine ⟨?_, by simpa using w2 ⟨some a, cs⟩ (by simp)⟩
    simpa using w5 ⟨some a, cs⟩ (by simp) a (by simp)
  have hnd3 : (fs ++ (cs ++ ringJoin rest)).Nodup := by
    rw [ringJoin_cons, ringJoin_cons] at w3
    exact w3
  have hndfc : (fs ++ cs).Nodup := by
    rw [← List.append_assoc] at hnd3
    exact (List.nodup_append.1 hnd3).1
  have hJ : ∀ x ∈ ringJoin rest, x ∉ fs ∧ x ∉ cs := by
    intro x hx
    rw [← List.append_assoc, List.nodup_append] at hnd3
    constructor
    · intro hxf
      exact hnd3.2.2 (by simp [hxf]) hx
    · intro hxc
      exact hnd3.2.2 (by simp [hxc]) hx
  have hco := prepend_childrenOf hc hfs hring hndfc
  have hno : ∀ r ∈ (⟨none, fs⟩ : SibRing) :: rest, r.owner ≠ some a := by
    refine rest_no_owner (WFf_perm ⟨w1, w2, w3, w4, w5, w6, w7, w8⟩
      (List.Perm.swap _ _ _)) rfl
  have heq := prepend_cons_eq hc hcs hfs hring
  have hsize : (prepend h a ⟨fs.getLast?⟩).1.size = h.size := by
    rw [heq]; simp
  have hdown : ∀ x, (getN (prepend h a ⟨fs.getLast?⟩).1 x).down =
      (getN h x).down := by
    rw [heq]; intro x; simp
  have hright : ∀ x, x ∉ fs → x ∉ cs →
      (getN (prepend h a ⟨fs.getLast?⟩).1 x).right = (getN h x).right := by
    rw [heq]
    intro x hxf hxc
    rw [right_set_sib_ne _ _ _ (fun he => hxc (by rw [he]; exact lastOf_mem hcs)),
      right_set_sib_ne _ _ _ (fun he => hxf (by rw [he]; exact lastOf_mem hfs))]
  have halt : a < h.size := by
    obtain ⟨r, hr, har⟩ := mem_ringJoin_iff.1 ha
    rcases List.mem_cons.1 hr with rfl | hr
    · exact w4 ⟨some a, cs⟩ (by simp) a har
    · exact w4 r (by simp [hr]) a har
  refine ⟨?_, ?_, ?_, ?_, ?_, ?_, ?_, ?_⟩
  · intro r hr
    rcases List.mem_cons.1 hr with rfl | hr
    · simp [hfs]
    · exact w1 r (by simp [hr])
  · intro r hr
    rcases List.mem_cons.1 hr with rfl | hr
    · exact hco.2
    · refine segLinks_frame ?_ (w2 r (by simp [hr]))
      intro x hx
      have hxJ := hJ x (mem_ringJoin_iff.2 ⟨r, hr, hx⟩)
      exact hright x hxJ.1 hxJ.2
  · rw [ringJoin_cons]
    rw [← List.append_assoc] at hnd3
    exact hnd3
  · intro r hr m hm
    rw [hsize]
    rcases List.mem_cons.1 hr with rfl | hr
    · simp only [List.mem_append] at hm
      cases hm with
      | inl hm => exact w4 ⟨none, fs⟩ (by simp) m hm
      | inr hm => exact w4 ⟨some a, cs⟩ (by simp) m hm
    · exact w4 r (by simp [hr]) m hm
  · intro r hr p hp
    rcases List.mem_cons.1 hr with rfl | hr
    · simp only [Option.toList_some, List.mem_singleton] at hp
      rw [hp]
      exact hco.1
    · rw [hdown p]
      exact w5 r (by simp [hr]) p hp
  · intro r1 h1 r2 h2 p hp ho
    rcases List.mem_cons.1 h1 with rfl | h1
    · simp only [Option.toList_some, List.mem_singleton] at hp
      subst hp
      rcases List.mem_cons.1 h2 with rfl | h2
      · rfl
      · exact absurd ho (hno r2 (by simp [h2]))
    · rcases List.mem_cons.1 h2 with rfl | h2
      · have hoa := owner_eq_of_mem_toList hp
        simp only at ho
        rw [Option.some_inj] at ho
        rw [← ho] at hoa
        exact absurd hoa (hno r1 (by simp [h1]))
      · exact w6 r1 (by simp [h1]) r2 (by simp [h2]) p hp ho
  · intro p hpm hd
    by_cases hpa : p = a
    · exact ⟨⟨some a, fs ++ cs⟩, by simp, by rw [hpa]⟩
    · rw [hdown p] at hd
      have hpm' : p ∈ ringJoin
          ((⟨none, fs⟩ : SibRing) :: ⟨some a, cs⟩ :: rest) := by
        rw [ringJoin_cons, ringJoin_cons]
        rw [ringJoin_cons] at hpm
        rw [← List.append_assoc]
        exact hpm
      obtain ⟨r, hr, ho⟩ := w7 p hpm' hd
      rcases List.mem_cons.1 hr with rfl | hr
      · simp at ho
      · rcases List.mem_cons.1 hr with rfl | hr
        · rw [Option.some_inj] at ho
          exact absurd ho.symm hpa
        · exact ⟨r, by simp [hr], ho⟩
  · intro r hr p hp
    rw [hsize]
    rcases List.mem_cons.1 hr with rfl | hr
    · simp only [Option.toList_some, List.mem_singleton] at hp
      rw [hp]; exact halt
    · exact w8 r (by simp [hr]) p hp

theorem WF_appendCons {h : Heap T} {rest : List SibRing} {a : Nat}
    {fs cs : List Nat}
    (hw : WFf h (⟨none, fs⟩ :: ⟨some a, cs⟩ :: rest)) (hfs : fs ≠ [])
    (ha : a ∈ ringJoin (⟨some a, cs⟩ :: rest)) :
    WFf (append h a ⟨fs.getLast?⟩).1 (⟨some a, cs ++ fs⟩ :: rest) := by
  obtain ⟨w1, w2, w3, w4, w5, w6, w7, w8⟩ := hw
  have hcs : cs ≠ [] := by simpa using w1 ⟨some a, cs⟩ (by simp)
  have hring : segLinks h fs (fs.headD 0) := by
    simpa using w2 ⟨none, fs⟩ (by simp)
  have hc : childrenOf h a cs := by
    refine ⟨?_, by simpa using w2 ⟨some a, cs⟩ (by simp)⟩
    simpa using w5 ⟨some a, cs⟩ (by simp) a (by simp)
  have hnd3 : (fs ++ (cs ++ ringJoin rest)).Nodup := by
    rw [ringJoin_cons, ringJoin_cons] at w3
    exact w3
  have hndfc : (fs ++ cs).Nodup := by
    have h' := hnd3
    rw [← List.append_assoc] at h'
    exact (List.nodup_append.1 h').1
  have hndcf : (cs ++ fs).Nodup := List.perm_append_comm.nodup hndfc
  have hJ : ∀ x ∈ ringJoin rest, x ∉ fs ∧ x ∉ cs := by
    intro x hx
    rw [← List.append_assoc, List.nodup_append] at hnd3
    constructor
    · intro hxf
      exact hnd3.2.2 (by simp [hxf]) hx
    · intro hxc
      exact hnd3.2.2 (by simp [hxc]) hx
  have hco := append_childrenOf hc hfs hring hndcf
  have hno : ∀ r ∈ (⟨none, fs⟩ : SibRing) :: rest, r.owner ≠ some a := by
    refine rest_no_owner (WFf_perm ⟨w1, w2, w3, w4, w5, w6, w7, w8⟩
      (List.Perm.swap _ _ _)) rfl
  have heq := append_cons_eq hc hcs hfs hring
  have hsize : (append h a ⟨fs.getLast?⟩).1.size = h.size := by
    rw [heq]; simp
  have hdown : ∀ x, x ≠ a → (getN (append h a ⟨fs.getLast?⟩).1 x).down =
      (getN h x).down := by
    rw [heq]
    intro x hx
    simp only
    rw [down_set_child_ne _ _ _ hx, down_set_sib, down_set_sib]
  have hright : ∀ x, x ∉ fs → x ∉ cs →
      (getN (append h a ⟨fs.getLast?⟩).1 x).right = (getN h x).right := by
    rw [heq]
    intro x hxf hxc
    simp only
    rw [right_set_child,
      right_set_sib_ne _ _ _ (fun he => hxc (by rw [he]; exact lastOf_mem hcs)),
      right_set_sib_ne _ _ _ (fun he => hxf (by rw [he]; exact lastOf_mem hfs))]
  have halt : a < h.size := by
    obtain ⟨r, hr, har⟩ := mem_ringJoin_iff.1 ha
    rcases List.mem_cons.1 hr with rfl | hr
    · exact w4 ⟨some a, cs⟩ (by simp) a har
    · exact w4 r (by simp [hr]) a har
  refine ⟨?_, ?_, ?_, ?_, ?_, ?_, ?_, ?_⟩
  · intro r hr
    rcases List.mem_cons.1 hr with rfl | hr
    · simp [hcs]
    · exact w1 r (by simp [hr])
  · intro r hr
    rcases List.mem_cons.1 hr with rfl | hr
    · exact hco.2
    · refine segLinks_frame ?_ (w2 r (by simp [hr]))
      intro x hx
      have hxJ := hJ x (mem_ringJoin_iff.2 ⟨r, hr, hx⟩)
      exact hright x hxJ.1 hxJ.2
  · rw [ringJoin_cons]
    simp only
    have hperm : ((cs ++ fs) ++ ringJoin rest).Perm
        (fs ++ (cs ++ ringJoin rest)) := by
      rw [← List.append_assoc]
      exact List.Perm.append_right _ List.perm_append_comm
    exact hperm.symm.nodup hnd3
  · intro r hr m hm
    rw [hsize]
    rcases List.mem_cons.1 hr with rfl | hr
    · simp only [List.mem_append] at hm
      cases hm with
      | inl hm => exact w4 ⟨some a, cs⟩ (by simp) m hm
      | inr hm => exact w4 ⟨none, fs⟩ (by simp) m hm
    · exact w4 r (by simp [hr]) m hm
  · intro r hr p hp
    rcases List.mem_cons.1 hr with rfl | hr
    · simp only [Option.toList_some, List.mem_singleton] at hp
      rw [hp]
      exact hco.1
    · have hoa := owner_eq_of_mem_toList hp
      have hpa : p ≠ a := by
        intro he
        exact hno r (by simp [hr]) (by rw [hoa, he])
      rw [hdown p hpa]
      exact w5 r (by simp [hr]) p hp
  · intro r1 h1 r2 h2 p hp ho
    rcases List.mem_cons.1 h1 with rfl | h1
    · simp only [Option.toList_some, List.mem_singleton] at hp
      subst hp
      rcases List.mem_cons.1 h2 with rfl | h2
      · rfl
      · exact absurd ho (hno r2 (by simp [h2]))
    · rcases List.mem_cons.1 h2 with rfl | h2
      · have hoa := owner_eq_of_mem_toList hp
        simp only at ho
        rw [Option.some_inj] at ho
        rw [← ho] at hoa
        exact absurd hoa (hno r1 (by simp [h1]))
      · exact w6 r1 (by simp [h1]) r2 (by simp [h2]) p hp ho
  · intro p hpm hd
    by_cases hpa : p = a
    · exact ⟨⟨some a, cs ++ fs⟩, by simp, by rw [hpa]⟩
    · rw [hdown p hpa] at hd
      have hpm' : p ∈ ringJoin
          ((⟨none, fs⟩ : SibRing) :: ⟨some a, cs⟩ :: rest) := by
        rw [ringJoin_cons, ringJoin_cons]
        rw [ringJoin_cons] at hpm
        simp only [List.mem_append] at hpm ⊢
        tauto
      obtain ⟨r, hr, ho⟩ := w7 p hpm' hd
      rcases List.mem_cons.1 hr with rfl | hr
      · simp at ho
      · rcases List.mem_cons.1 hr with rfl | hr
        · rw [Option.some_inj] at ho
          exact absurd ho.symm hpa
        · exact ⟨r, by simp [hr], ho⟩
  · intro r hr p hp
    rw [hsize]
    rcases List.mem_cons.1 hr with rfl | hr
    · simp only [Option.toList_some, List.mem_singleton] at hp
      rw [hp]; exact halt
    · exact w8 r (by simp [hr]) p hp

theorem WF_popOnly {h : Heap T} {rest : List SibRing} {a c : Nat}
    (hw : WFf h (⟨some a, [c]⟩ :: rest)) :
    WFf (pop_front h a).1 (⟨none, [c]⟩ :: rest) := by
  obtain ⟨w1, w2, w3, w4, w5, w6, w7, w8⟩ := hw
  have hc : childrenOf h a [c] := by
    refine ⟨?_, by simpa using w2 ⟨some a, [c]⟩ (by simp)⟩
    simpa using w5 ⟨some a, [c]⟩ (by simp) a (by simp)
  have hno : ∀ r ∈ rest, r.owner ≠ some a :=
    rest_no_owner ⟨w1, w2, w3, w4, w5, w6, w7, w8⟩ rfl
  have heq := pop_front_only_eq hc
  have hsize : (pop_front h a).1.size = h.size := by
    rw [heq]; simp [reset_child]
  have hdown : ∀ x, x ≠ a → (getN (pop_front h a).1 x).down =
      (getN h x).down := by
    rw [heq]
    intro x hx
    simp only
    rw [down_set_sib]
    simp [reset_child, down_set_child_ne _ _ _ hx]
  have hdowna : (getN (pop_front h a).1 a).down = none := by
    rw [heq]
    simp only
    rw [down_set_sib]
    simp [reset_child]
  have hright : ∀ x, x ≠ c → (getN (pop_front h a).1 x).right =
      (getN h x).right := by
    rw [heq]
    intro x hx
    simp only
    rw [right_set_sib_ne _ _ _ hx]
    simp [reset_child]
  have hrightc : (getN (pop_front h a).1 c).right = some c := by
    rw [heq]
    simp only
    rw [right_set_sib_same]
  have hcJ : ∀ x ∈ ringJoin rest, x ≠ c := by
    intro x hx he
    rw [ringJoin_cons, List.nodup_append] at w3
    exact w3.2.2 (by simp) (he ▸ hx)
  refine ⟨?_, ?_, ?_, ?_, ?_, ?_, ?_, ?_⟩
  · intro r hr
    rcases List.mem_cons.1 hr with rfl | hr
    · simp
    · exact w1 r (by simp [hr])
  · intro r hr
    rcases List.mem_cons.1 hr with rfl | hr
    · exact ⟨by simpa using hrightc, trivial⟩
    · refine segLinks_frame ?_ (w2 r (by simp [hr]))
      intro x hx
      exact hright x (hcJ x (mem_ringJoin_iff.2 ⟨r, hr, hx⟩))
  · rw [ringJoin_cons]
    rw [ringJoin_cons] at w3
    exact w3
  · intro r hr m hm
    rw [hsize]
    rcases List.mem_cons.1 hr with rfl | hr
    · exact w4 ⟨some a, [c]⟩ (by simp) m hm
    · exact w4 r (by simp [hr]) m hm
  · intro r hr p hp
    rcases List.mem_cons.1 hr with rfl | hr
    · simp at hp
    · have hoa := owner_eq_of_mem_toList hp
      have hpa : p ≠ a := by
        intro he
        exact hno r hr (by rw [hoa, he])
      rw [hdown p hpa]
      exact w5 r (by simp [hr]) p hp
  · intro r1 h1 r2 h2 p hp ho
    rcases List.mem_cons.1 h1 with rfl | h1
    · simp at hp
    · rcases List.mem_cons.1 h2 with rfl | h2
      · simp at ho
      · exact w6 r1 (by simp [h1]) r2 (by simp [h2]) p hp ho
  · intro p hpm hd
    by_cases hpa : p = a
    · rw [hpa, hdowna] at hd
      exact absurd rfl hd
    · rw [hdown p hpa] at hd
      have hpm' : p ∈ ringJoin ((⟨some a, [c]⟩ : SibRing) :: rest) := by
        rw [ringJoin_cons]
        rw [ringJoin_cons] at hpm
        exact hpm
      obtain ⟨r, hr, ho⟩ := w7 p hpm' hd
      rcases List.mem_cons.1 hr with rfl | hr
      · rw [Option.some_inj] at ho
        exact absurd ho.symm hpa
      · exact ⟨r, by simp [hr], ho⟩
  · intro r hr p hp
    rw [hsize]
    rcases List.mem_cons.1 hr with rfl | hr
    · simp at hp
    · exact w8 r (by simp [hr]) p hp

theorem WF_popCons {h : Heap T} {rest : List SibRing} {a c : Nat}
    {cs : List Nat} (hcs : cs ≠ [])
    (hw : WFf h (⟨some a, c :: cs⟩ :: rest)) :
    WFf (pop_front h a).1 (⟨none, [c]⟩ :: ⟨some a, cs⟩ :: rest) := by
  obtain ⟨w1, w2, w3, w4, w5, w6, w7, w8⟩ := hw
  have hc : childrenOf h a (c :: cs) := by
    refine ⟨?_, by simpa using w2 ⟨some a, c :: cs⟩ (by simp)⟩
    simpa using w5 ⟨some a, c :: cs⟩ (by simp) a (by simp)
  have hndJ : ((c :: cs) ++ ringJoin rest).Nodup := by
    rw [ringJoin_cons] at w3
    exact w3
  have hnd : (c :: cs).Nodup := (List.nodup_append.1 hndJ).1
  have hJ : ∀ x ∈ ringJoin rest, x ∉ c :: cs := by
    intro x hx hmem
    exact (List.nodup_append.1 hndJ).2.2 hmem hx
  have hno : ∀ r ∈ rest, r.owner ≠ some a :=
    rest_no_owner ⟨w1, w2, w3, w4, w5, w6, w7, w8⟩ rfl
  have hpop := pop_front_childrenOf hc hnd
  have heq := pop_front_cons_eq hc hcs hnd
  have hsize : (pop_front h a).1.size = h.size := by
    rw [heq]; simp
  have hdown : ∀ x, (getN (pop_front h a).1 x).down = (getN h x).down := by
    rw [heq]
    intro x
    simp only
    rw [down_set_sib, down_set_sib]
  have hright : ∀ x, x ≠ c → x ≠ lastOf cs →
      (getN (pop_front h a).1 x).right = (getN h x).right := by
    rw [heq]
    intro x hxc hxl
    simp only
    rw [right_set_sib_ne _ _ _ hxc, right_set_sib_ne _ _ _ hxl]
  refine ⟨?_, ?_, ?_, ?_, ?_, ?_, ?_, ?_⟩
  · intro r hr
    rcases List.mem_cons.1 hr with rfl | hr
    · simp
    · rcases List.mem_cons.1 hr with rfl | hr
      · exact hcs
      · exact w1 r (by simp [hr])
  · intro r hr
    rcases List.mem_cons.1 hr with rfl | hr
    · exact ⟨by simpa using hpop.2.2, trivial⟩
    · rcases List.mem_cons.1 hr with rfl | hr
      · exact hpop.2.1.2
      · refine segLinks_frame ?_ (w2 r (by simp [hr]))
        intro x hx
        have hxm := hJ x (mem_ringJoin_iff.2 ⟨r, hr, hx⟩)
        refine hright x (fun he => hxm (by rw [he]; simp)) ?_
        intro he
        apply hxm
        rw [he]
        exact List.mem_cons_of_mem c (lastOf_mem hcs)
  · rw [ringJoin_cons, ringJoin_cons]
    rw [ringJoin_cons] at w3
    simpa using w3
  · intro r hr m hm
    rw [hsize]
    rcases List.mem_cons.1 hr with rfl | hr
    · simp only [List.mem_singleton] at hm
      exact w4 ⟨some a, c :: cs⟩ (by simp) m (by simp [hm])
    · rcases List.mem_cons.1 hr with rfl | hr
      · exact w4 ⟨some a, c :: cs⟩ (by simp) m (by simp [hm])
      · exact w4 r (by simp [hr]) m hm
  · intro r hr p hp
    rcases List.mem_cons.1 hr with rfl | hr
    · simp at hp
    · rcases List.mem_cons.1 hr with rfl | hr
      · simp only [Option.toList_some, List.mem_singleton] at hp
        rw [hp]
        exact hpop.2.1.1
      · rw [hdown p]
        exact w5 r (by simp [hr]) p hp
  · intro r1 h1 r2 h2 p hp ho
    rcases List.mem_cons.1 h1 with rfl | h1
    · simp at hp
    · rcases List.mem_cons.1 h1 with rfl | h1
      · simp only [Option.toList_some, List.mem_singleton] at hp
        subst hp
        rcases List.mem_cons.1 h2 with rfl | h2
        · simp at ho
        · rcases List.mem_cons.1 h2 with rfl | h2
          · rfl
          · exact absurd ho (hno r2 h2)
      · rcases List.mem_cons.1 h2 with rfl | h2
        · simp at ho
        · rcases List.mem_cons.1 h2 with rfl | h2
          · have hoa := owner_eq_of_mem_toList hp
            simp only at ho
            rw [Option.some_inj] at ho
            rw [← ho] at hoa
            exact absurd hoa (hno r1 h1)
          · exact w6 r1 (by simp [h1]) r2 (by simp [h2]) p hp ho
  · intro p hpm hd
    rw [hdown p] at hd
    have hpm' : p ∈ ringJoin ((⟨some a, c :: cs⟩ : SibRing) :: rest) := by
      rw [ringJoin_cons]
      rw [ringJoin_cons, ringJoin_cons] at hpm
      simpa using hpm
    obtain ⟨r, hr, ho⟩ := w7 p hpm' hd
    rcases List.mem_cons.1 hr with rfl | hr
    · exact ⟨⟨some a, cs⟩, by simp, by simpa using ho⟩
    · exact ⟨r, by simp [hr], ho⟩
  · intro r hr p hp
    rw [hsize]
    rcases List.mem_cons.1 hr with rfl | hr
    · simp at hp
    · rcases List.mem_cons.1 hr with rfl | hr
      · simp only [Option.toList_some, List.mem_singleton] at hp
        rw [hp]
        exact w8 ⟨some a, c :: cs⟩ (by simp) a (by simp)
      · exact w8 r (by simp [hr]) p hp

theorem WF_prependLeaf {h : Heap T} {rest : List SibRing} {a : Nat}
    {fs : List Nat} (hw : WFf h (⟨none, fs⟩ :: rest)) (hfs : fs ≠ [])
    (ha : a ∈ ringJoin rest) (hleaf : is_leaf h a = true) :
    WFf (prepend h a ⟨fs.getLast?⟩).1 (⟨some a, fs⟩ :: rest) := by
  rw [prepend_leaf_eq hleaf hfs]
  exact WF_set_child_leaf hw hfs ha hleaf

theorem WF_appendLeaf {h : Heap T} {rest : List SibRing} {a : Nat}
    {fs : List Nat} (hw : WFf h (⟨none, fs⟩ :: rest)) (hfs : fs ≠ [])
    (ha : a ∈ ringJoin rest) (hleaf : is_leaf h a = true) :
    WFf (append h a ⟨fs.getLast?⟩).1 (⟨some a, fs⟩ :: rest) := by
  rw [append_leaf_eq hleaf hfs]
  exact WF_set_child_leaf hw hfs ha hleaf

/-- Every public operation preserves well-formedness of the global
state. -/
theorem WF_step {h h' : Heap T} {rs rs' : List SibRing}
    (hs : Step h rs h' rs') (hw : WFf h rs) : WFf h' rs' := by
  cases hs with
  | alloc d => exact WF_alloc hw d
  | pushFrontLeaf rest a r hp ha hleaf =>
    have hw' := WFf_perm hw hp
    have hr : (getN h r).right = some r := by
      simpa [segLinks] using hw'.2.1 ⟨none, [r]⟩ (by simp)
    rw [push_front_eq_prepend hr]
    exact WF_prependLeaf hw' (by simp) ha hleaf
  | pushFrontCons rest a r cs hp ha =>
    have hw' := WFf_perm hw hp
    have hr : (getN h r).right = some r := by
      simpa [segLinks] using hw'.2.1 ⟨none, [r]⟩ (by simp)
    rw [push_front_eq_prepend hr]
    exact WF_prependCons hw' (by simp) ha
  | pushBackLeaf rest a r hp ha hleaf =>
    have hw' := WFf_perm hw hp
    have hr : (getN h r).right = some r := by
      simpa [segLinks] using hw'.2.1 ⟨none, [r]⟩ (by simp)
    rw [push_back_eq_append hr]
    exact WF_appendLeaf hw' (by simp) ha hleaf
  | pushBackCons rest a r cs hp ha =>
    have hw' := WFf_perm hw hp
    have hr : (getN h r).right = some r := by
      simpa [segLinks] using hw'.2.1 ⟨none, [r]⟩ (by simp)
    rw [push_back_eq_append hr]
    exact WF_appendCons hw' (by simp) ha
  | popOnly rest a c hp ha =>
    exact WF_popOnly (WFf_perm hw hp)
  | popCons rest a c cs hcs hp ha =>
    exact WF_popCons hcs (WFf_perm hw hp)
  | prependLeaf rest a fs hfs hp ha hleaf =>
    exact WF_prependLeaf (WFf_perm hw hp) hfs ha hleaf
  | prependCons rest a fs cs hfs hp ha =>
    exact WF_prependCons (WFf_perm hw hp) hfs ha
  | appendLeaf rest a fs hfs hp ha hleaf =>
    exact WF_appendLeaf (WFf_perm hw hp) hfs ha hleaf
  | appendCons rest a fs cs hfs hp ha =>
    exact WF_appendCons (WFf_perm hw hp) hfs ha

theorem WF_steps {h h' : Heap T} {rs rs' : List SibRing}
    (hs : Steps h rs h' rs') (hw : WFf h rs) : WFf h' rs' := by
  induction hs with
  | refl => exact hw
  | tail hpre hstep ih => exact WF_step hstep ih

theorem ring_members_nodup {h : Heap T} {rs : List SibRing}
    (hw : WFf h rs) {r : SibRing} (hr : r ∈ rs) : r.members.Nodup := by
  have h3 := hw.2.2.1
  rw [ringJoin, List.nodup_flatten] at h3
  exact h3.1 r.members (List.mem_map_of_mem SibRing.members hr)

/-! ### Claim theorems -/

/-- Claim C1.  For every node reachable (live in some sibling ring) after
any sequence of the public operations (`allocate`, `push_front`,
`push_back`, `pop_front`, `prepend`, `append`) from a well-formed
state: its `right` pointer is non-null; `right` points to the node
itself iff the node has no siblings (its ring has length 1); and
following `right` repeatedly from the node visits every sibling of its
chain exactly once in left-to-right order (the chain's order, wrapped to
start at the node, with no duplicates) before returning to the node
after one full lap. -/
theorem reachable_ring_invariant {h h' : Heap T} {rs rs' : List SibRing}
    (hw : WFf h rs) (hs : Steps h rs h' rs') {n : Nat}
    (hn : n ∈ ringJoin rs') :
    (getN h' n).right ≠ none ∧
    ∃ ring ∈ rs', n ∈ ring.members ∧ ring.members.Nodup ∧
      ((getN h' n).right = some n ↔ ring.members.length = 1) ∧
      ∃ u v, ring.members = u ++ n :: v ∧
        ((List.range ring.members.length).map fun k => (rightStep h')^[k] n) =
          n :: (v ++ u) ∧
        (rightStep h')^[ring.members.length] n = n := by
  have hw' := WF_steps hs hw
  obtain ⟨r, hr, hnr⟩ := mem_ringJoin_iff.1 hn
  have hnd : r.members.Nodup := ring_members_nodup hw' hr
  obtain ⟨h1, h2, u, v, h3, h4, h5⟩ :=
    ring_node_props (hw'.2.1 r hr) hnd hnr
  exact ⟨h1, r, hr, hnr, hnd, h2, u, v, h3, h4, h5⟩

theorem node_eq {n1 n2 : Node T} (hd : n1.down = n2.down)
    (hr : n1.right = n2.right) (hda : n1.data = n2.data) : n1 = n2 := by
  cases n1; cases n2; simp_all

/-- Claim C2.  `push_front(t)` on node `self` with a standalone singleton
tree rooted at `r` makes `r` the new first child: if `self` was leafless
its `down` becomes `r`; otherwise `r`'s `right` is set to the old head
(`down.right`), the old tail's `right` is set to `r`, and `self.down` is
unchanged; in both cases the tree handle is marked empty. -/
theorem push_front_spec {h : Heap T} {a r : Nat} {cs : List Nat}
    (hc : childrenOf h a cs) (hr : (getN h r).right = some r)
    (hnd : (r :: cs).Nodup) :
    childrenOf (push_front h a ⟨some r⟩).1 a (r :: cs) ∧
    (push_front h a ⟨some r⟩).2.root = none ∧
    (cs = [] → (getN (push_front h a ⟨some r⟩).1 a).down = some r) ∧
    (cs ≠ [] →
      (getN (push_front h a ⟨some r⟩).1 r).right = head h a ∧
      (getN (push_front h a ⟨some r⟩).1 (lastOf cs)).right = some r ∧
      (getN (push_front h a ⟨some r⟩).1 a).down = (getN h a).down) := by
  refine ⟨push_front_childrenOf hc hr hnd, rfl, ?_, ?_⟩
  · intro hcse
    subst hcse
    rw [push_front_leaf_eq (childrenOf_is_leaf_true hc)]
    simp only
    rw [down_set_child_same]
  · intro hcse
    have heq := push_front_cons_eq hc hcse (r := r)
    rw [heq]
    have hrL : r ≠ lastOf cs := by
      intro he
      exact (List.nodup_cons.1 hnd).1 (he ▸ lastOf_mem hcse)
    refine ⟨?_, ?_, ?_⟩
    · simp only
      rw [right_set_sib_ne _ _ _ hrL, right_set_sib_same,
        childrenOf_head hc hcse]
    · simp only
      rw [right_set_sib_same]
    · simp only
      rw [down_set_sib, down_set_sib]

/-- Claim C3.  `pop_front()` returns `none` iff `self` is leafless (and is
then a no-op); otherwise it returns `Some` tree whose root is the former
first child, that root's `right` is reset to itself (a standalone
singleton), and afterwards: if the removed node was the only child the
parent's `down` is null, otherwise the tail's `right` points to the
removed node's former successor (the new head) and `down` is
unchanged. -/
theorem pop_front_spec {h : Heap T} {a : Nat} {cs : List Nat}
    (hc : childrenOf h a cs) (hnd : cs.Nodup) :
    ((pop_front h a).2 = none ↔ cs = []) ∧
    (cs = [] → (pop_front h a).1 = h) ∧
    ∀ c cs', cs = c :: cs' →
      (pop_front h a).2 = some ⟨some c⟩ ∧
      (getN (pop_front h a).1 c).right = some c ∧
      childrenOf (pop_front h a).1 a cs' ∧
      (cs' = [] → (getN (pop_front h a).1 a).down = none) ∧
      (cs' ≠ [] →
        (getN (pop_front h a).1 (lastOf cs')).right = some (cs'.headD 0) ∧
        (getN (pop_front h a).1 a).down = (getN h a).down) := by
  refine ⟨?_, ?_, ?_⟩
  · constructor
    · intro hnone
      by_contra hcse
      cases hcsq : cs with
      | nil => exact hcse hcsq
      | cons c cs' =>
        rw [hcsq] at hc hnd
        have hpop := pop_front_childrenOf hc hnd
        rw [hnone] at hpop
        exact Option.noConfusion hpop.1
    · intro hcse
      subst hcse
      rw [pop_front_leaf_eq (childrenOf_is_leaf_true hc)]
  · intro hcse
    subst hcse
    rw [pop_front_leaf_eq (childrenOf_is_leaf_true hc)]
  · intro c cs' hcse
    subst hcse
    have hpop := pop_front_childrenOf hc hnd
    refine ⟨hpop.1, hpop.2.2, hpop.2.1, ?_, ?_⟩
    · intro hcs'
      subst hcs'
      rw [pop_front_only_eq hc]
      simp only
      rw [down_set_sib]
      simp [reset_child]
    · intro hcs'
      have heq := pop_front_cons_eq hc hcs' hnd
      rw [heq]
      have hcl : c ≠ lastOf cs' := by
        intro he
        exact (List.nodup_cons.1 hnd).1 (he ▸ lastOf_mem hcs')
      refine ⟨?_, ?_⟩
      · simp only
        rw [right_set_sib_ne _ _ _ hcl.symm, right_set_sib_same]
      · simp only
        rw [down_set_sib, down_set_sib]

@[simp] theorem down_reset_child_same (h : Heap T) (a : Nat) :
    (getN (reset_child h a) a).down = none := by
  simp [reset_child]

theorem down_reset_child_ne (h : Heap T) (a : Nat) {x : Nat} (hx : x ≠ a) :
    (getN (reset_child h a) x).down = (getN h x).down := by
  simp [reset_child, down_set_child_ne _ _ _ hx]

@[simp] theorem right_reset_child (h : Heap T) (a x : Nat) :
    (getN (reset_child h a) x).right = (getN h x).right := by
  simp [reset_child]

@[simp] theorem data_reset_child (h : Heap T) (a x : Nat) :
    (getN (reset_child h a) x).data = (getN h x).data := by
  simp [reset_child]

@[simp] theorem size_reset_child (h : Heap T) (a : Nat) :
    (reset_child h a).size = h.size := by
  simp [reset_child]

/-- Claim C4.  `push_front` of a standalone singleton tree immediately
followed by `pop_front` restores the heap pointwise (hence the child
sequence is exactly as before), and the popped tree equals the tree
that was pushed. -/
theorem push_front_pop_front_inverse {h : Heap T} {a r : Nat}
    {cs : List Nat} (hc : childrenOf h a cs)
    (hr : (getN h r).right = some r) (hnd : (r :: cs).Nodup) :
    (pop_front (push_front h a ⟨some r⟩).1 a).2 = some ⟨some r⟩ ∧
    (∀ x, getN (pop_front (push_front h a ⟨some r⟩).1 a).1 x = getN h x) ∧
    (pop_front (push_front h a ⟨some r⟩).1 a).1.size = h.size ∧
    childrenOf (pop_front (push_front h a ⟨some r⟩).1 a).1 a cs := by
  have hco := push_front_childrenOf hc hr hnd
  have hpop := pop_front_childrenOf hco hnd
  refine ⟨hpop.1, ?_, ?_, hpop.2.1⟩
  · intro x
    by_cases hcse : cs = []
    · subst hcse
      rw [pop_front_only_eq hco,
        push_front_leaf_eq (childrenOf_is_leaf_true hc)]
      simp only
      apply node_eq
      · rw [down_set_sib]
        by_cases hxa : x = a
        · subst hxa
          rw [down_reset_child_same, hc.1]
          simp
        · rw [down_reset_child_ne _ _ hxa, down_set_child_ne _ _ _ hxa]
      · by_cases hxr : x = r
        · subst hxr
          rw [right_set_sib_same, hr]
        · rw [right_set_sib_ne _ _ _ hxr, right_reset_child,
            right_set_child]
      · rw [data_set_sib, data_reset_child, data_set_child]
    · rw [pop_front_cons_eq hco hcse hnd,
        push_front_cons_eq hc hcse]
      simp only
      have hrL : r ≠ lastOf cs := by
        intro he
        exact (List.nodup_cons.1 hnd).1 (he ▸ lastOf_mem hcse)
      apply node_eq
      · rw [down_set_sib, down_set_sib, down_set_sib, down_set_sib]
      · by_cases hxr : x = r
        · subst hxr
          rw [right_set_sib_same, hr]
        · rw [right_set_sib_ne _ _ _ hxr]
          by_cases hxL : x = lastOf cs
          · subst hxL
            rw [right_set_sib_same, segLinks_getLast_right hc.2 hcse]
          · rw [right_set_sib_ne _ _ _ hxL, right_set_sib_ne _ _ _ hxL,
              right_set_sib_ne _ _ _ hxr]
      · rw [data_set_sib, data_set_sib, data_set_sib, data_set_sib]
  · by_cases hcse : cs = []
    · subst hcse
      rw [pop_front_only_eq hco,
        push_front_leaf_eq (childrenOf_is_leaf_true hc)]
      simp
    · rw [pop_front_cons_eq hco hcse hnd, push_front_cons_eq hc hcse]
      simp

/-- Claim C5.  `append` makes the child sequence the original children
followed by the forest's trees in order and makes the forest's tail the
new `down`; `prepend` makes it the forest's trees followed by the
original children and leaves the existing `down` unchanged on a
non-leaf; both are no-ops on an empty forest and always leave the
forest handle empty. -/
theorem append_prepend_spec {h : Heap T} {a : Nat} {cs fs : List Nat}
    (hc : childrenOf h a cs) (hfs : fs ≠ [])
    (hring : segLinks h fs (fs.headD 0)) (hnd : (fs ++ cs).Nodup) :
    childrenOf (append h a ⟨fs.getLast?⟩).1 a (cs ++ fs) ∧
    (getN (append h a ⟨fs.getLast?⟩).1 a).down = fs.getLast? ∧
    (append h a ⟨fs.getLast?⟩).2 = ⟨none⟩ ∧
    childrenOf (prepend h a ⟨fs.getLast?⟩).1 a (fs ++ cs) ∧
    (cs ≠ [] →
      (getN (prepend h a ⟨fs.getLast?⟩).1 a).down = (getN h a).down) ∧
    (prepend h a ⟨fs.getLast?⟩).2 = ⟨none⟩ ∧
    (∀ (h' : Heap T) (a' : Nat),
      append h' a' ⟨none⟩ = (h', ⟨none⟩) ∧ prepend h' a' ⟨none⟩ = (h', ⟨none⟩)) := by
  have happ := append_childrenOf hc hfs hring (List.perm_append_comm.nodup hnd)
  refine ⟨happ, ?_, ?_, prepend_childrenOf hc hfs hring hnd, ?_, ?_, ?_⟩
  · rw [happ.1, getLast?_append_right hfs]
  · simp [append, forest_not_empty hfs, Forest.clear]
  · intro hcse
    rw [prepend_cons_eq hc hcse hfs hring]
    simp only
    rw [down_set_sib, down_set_sib]
  · simp [prepend, forest_not_empty hfs, Forest.clear]
  · exact fun h' a' => ⟨append_empty_eq h' a', prepend_empty_eq h' a'⟩

/-- Claim C7.  `children` (a pure function of the heap — it mutates no
linkage) yields the empty sequence precisely on leafless nodes and
otherwise exactly the direct children in head-to-tail order; `is_leaf`
is true on leafless nodes and false after any push. -/
theorem children_spec {h : Heap T} {a : Nat} {cs : List Nat} {r : Nat}
    (hc : childrenOf h a cs) (hlen : cs.length ≤ h.size)
    (hr : (getN h r).right = some r) (hndr : (r :: cs).Nodup) :
    children h a = cs ∧
    (cs = [] → is_leaf h a = true ∧ children h a = []) ∧
    (cs ≠ [] → is_leaf h a = false) ∧
    is_leaf (push_front h a ⟨some r⟩).1 a = false ∧
    is_leaf (push_back h a ⟨some r⟩).1 a = false := by
  have hnd : cs.Nodup := (List.nodup_cons.1 hndr).2
  have hndb : (cs ++ [r]).Nodup := by
    refine (@List.perm_append_comm _ [r] cs).nodup ?_
    simpa using hndr
  refine ⟨children_eq hc hnd hlen, ?_, childrenOf_is_leaf_false hc, ?_, ?_⟩
  · intro hcse
    subst hcse
    exact ⟨childrenOf_is_leaf_true hc, children_eq hc hnd hlen⟩
  · exact childrenOf_is_leaf_false (push_front_childrenOf hc hr hndr)
      (by simp)
  · exact childrenOf_is_leaf_false (push_back_childrenOf hc hr hndb)
      (by simp)

/-- Claim C8.  `make_node(data)` produces a fresh node at the new address
`h.size` holding `data`, leafless (`down` null) and sibling-less
(`right` = itself), and leaves every other node untouched (the caller
gets exclusive ownership of a node shared with nothing). -/
theorem make_node_spec (h : Heap T) (d : T) :
    (make_node h d).2 = h.size ∧
    (make_node h d).1.size = h.size + 1 ∧
    (getN (make_node h d).1 (make_node h d).2).data = d ∧
    is_leaf (make_node h d).1 (make_node h d).2 = true ∧
    (getN (make_node h d).1 (make_node h d).2).right = some (make_node h d).2 ∧
    ∀ x, x ≠ h.size → getN (make_node h d).1 x = getN h x := by
  refine ⟨rfl, rfl, ?_, ?_, ?_, ?_⟩
  · rw [make_node_addr, getN_make_node_same]
  · rw [make_node_addr]
    simp [is_leaf, getN_make_node_same]
  · rw [make_node_addr, getN_make_node_same]
  · exact fun x hx => getN_make_node_ne h d hx

theorem push_back_frame {h : Heap T} {a r : Nat} {cs : List Nat}
    (hc : childrenOf h a cs) {x : Nat} (hxr : x ≠ r) (hxcs : x ∉ cs) :
    (getN (push_back h a ⟨some r⟩).1 x).right = (getN h x).right := by
  by_cases hcse : cs = []
  · subst hcse
    rw [push_back_leaf_eq (childrenOf_is_leaf_true hc)]
    simp only
    rw [right_set_child]
  · rw [push_back_cons_eq hc hcse]
    simp only
    rw [right_set_child,
      right_set_sib_ne _ _ _ (fun he => hxcs (by rw [he]; exact lastOf_mem hcse)),
      right_set_sib_ne _ _ _ hxr]

/-- Claim C10.  The `Extend` implementation is by definition the loop
`for child in iter { self.push_back(child) }`; extending a node with
singleton trees rooted at `rs` (in iterator order) appends `rs` to the
child sequence in that order. -/
theorem extend_spec {h : Heap T} {a : Nat} {cs : List Nat} {rs : List Nat}
    (hc : childrenOf h a cs)
    (hrs : ∀ x ∈ rs, (getN h x).right = some x)
    (hnd : (cs ++ rs).Nodup) :
    childrenOf (extend h a (rs.map fun x => ⟨some x⟩)) a (cs ++ rs) := by
  induction rs generalizing h cs with
  | nil =>
    simpa [extend] using hc
  | cons r rs' ih =>
    have hndr : (cs ++ [r]).Nodup := by
      refine List.Nodup.sublist ?_ hnd
      exact List.Sublist.append_left
        (List.cons_sublist_cons.2 (List.nil_sublist rs')) cs
    have hrr : (getN h r).right = some r := hrs r (by simp)
    have hco1 := push_back_childrenOf hc hrr hndr
    have hnd' : ((cs ++ [r]) ++ rs').Nodup := by
      rw [List.append_assoc]
      simpa using hnd
    have hrs' : ∀ x ∈ rs', (getN (push_back h a ⟨some r⟩).1 x).right =
        some x := by
      intro x hx
      have hxr : x ≠ r := by
        intro he
        have : (r :: rs').Nodup := by
          refine List.Nodup.sublist (List.sublist_append_right cs _) hnd
        exact (List.nodup_cons.1 this).1 (he ▸ hx)
      have hxcs : x ∉ cs := by
        intro hmem
        rw [List.nodup_append] at hnd
        exact hnd.2.2 hmem (by simp [hx])
      rw [push_back_frame hc hxr hxcs]
      exact hrs x (by simp [hx])
    have := ih hco1 hrs' hnd'
    rw [List.append_assoc] at this
    simpa [extend] using this

theorem zip_self : ∀ (l : List Nat), l.zip l = l.map fun x => (x, x)
  | [] => rfl
  | x :: xs => by simp [zip_self xs]

theorem eqNode_succ [DecidableEq T] (h : Heap T) (fuel a b : Nat) :
    eqNode h (fuel+1) a b =
      (decide ((getN h a).data = (getN h b).data) &&
        (((children h a).length == (children h b).length) &&
          (((children h a).zip (children h b)).all fun p =>
            eqNode h fuel p.1 p.2))) := rfl

theorem eqNode_refl [DecidableEq T] {h : Heap T} :
    ∀ (n a : Nat), finDepth h n a = true → eqNode h (n+1) a a = true := by
  intro n
  induction n with
  | zero =>
    intro a hfin
    have hch : children h a = [] := by
      simpa [finDepth, List.isEmpty_iff] using hfin
    simp [eqNode_succ, hch]
  | succ n ih =>
    intro a hfin
    have hall : ∀ c ∈ children h a, finDepth h n c = true := by
      simpa [finDepth, List.all_eq_true] using hfin
    rw [eqNode_succ]
    simp only [zip_self, List.all_map]
    simp [List.all_eq_true]
    exact fun c hc => ih c (hall c hc)

/-! ### Builds: interpreted construction-operation sequences -/

/-- A construction recipe: one `allocate` for the node's payload
followed by, for each child recipe in order, building the child and
`push_back`-ing it.  Interpreting a `Build` (below) is literally a
sequence of the public construction operations, so two nodes are
"built by the same sequence of construction operations" exactly when
they are built by interpreting the same `Build`. -/
inductive Build (T : Type) where
  | node (data : T) (children : List (Build T))

mutual
/-- Interpret a build: `make_node` for the payload, then build and
`push_back` each child in order.  Returns the final heap and the root's
address. -/
def buildT (b : Build T) (h : Heap T) : Heap T × Nat :=
  match b with
  | .node d cs => (buildList cs (make_node h d).1 h.size, h.size)

/-- Interpret a list of child builds against parent `a`: build each one
and `push_back` it onto `a`, left to right. -/
def buildList (bs : List (Build T)) (h : Heap T) (a : Nat) : Heap T :=
  match bs with
  | [] => h
  | b :: bs' =>
    let q := buildT b h
    buildList bs' (push_back q.1 a ⟨some q.2⟩).1 a
end

theorem buildT_node_eq (d : T) (cs : List (Build T)) (h : Heap T) :
    buildT (Build.node d cs) h =
      (buildList cs (make_node h d).1 h.size, h.size) := rfl

theorem buildList_nil_eq (h : Heap T) (a : Nat) :
    buildList ([] : List (Build T)) h a = h := rfl

theorem buildList_cons_eq (b : Build T) (bs : List (Build T)) (h : Heap T)
    (a : Nat) :
    buildList (b :: bs) h a =
      buildList bs (push_back (buildT b h).1 a ⟨some (buildT b h).2⟩).1 a := rfl

/-- `Realizes h lo hi a b`: node `a` of heap `h` is an in-memory
realization of the abstract build `b` — its data is `b`'s data and its
children realize `b`'s children elementwise in order — with every
involved address inside `[lo, hi)` and each node's children realized
strictly above the node itself. -/
inductive Realizes (h : Heap T) : Nat → Nat → Nat → Build T → Prop where
  | mk (lo hi a : Nat) (d : T) (bs : List (Build T)) (cs : List Nat) :
      lo ≤ a → a < hi → hi ≤ h.size →
      (getN h a).data = d →
      childrenOf h a cs → cs.Nodup → cs.length ≤ h.size →
      cs.length = bs.length →
      (∀ p ∈ cs.zip bs, Realizes h (a+1) hi p.1 p.2) →
      Realizes h lo hi a (.node d bs)

theorem Realizes_bounds {h : Heap T} {lo hi a : Nat} {b : Build T}
    (hr : Realizes h lo hi a b) : lo ≤ a ∧ a < hi ∧ hi ≤ h.size := by
  cases hr with
  | mk lo hi a d bs cs h1 h2 h3 => exact ⟨h1, h2, h3⟩

theorem Realizes_weaken {h : Heap T} {lo hi a : Nat} {b : Build T}
    (hr : Realizes h lo hi a b) : ∀ {lo' hi' : Nat}, lo' ≤ lo →
    hi ≤ hi' → hi' ≤ h.size → Realizes h lo' hi' a b := by
  induction hr with
  | mk lo hi a d bs cs h1 h2 h3 h4 h5 h6 h7 h8 h9 ih =>
    intro lo' hi' hlo hhi hsz
    refine Realizes.mk lo' hi' a d bs cs (le_trans hlo h1)
      (lt_of_lt_of_le h2 hhi) hsz h4 h5 h6 h7 h8 ?_
    intro p hp
    exact ih p hp le_rfl hhi hsz

theorem Realizes_mono {h h' : Heap T} {lo hi a : Nat} {b : Build T}
    (hr : Realizes h lo hi a b) : h.size ≤ h'.size →
    (∀ x, lo ≤ x → x < hi → x ≠ a → getN h' x = getN h x) →
    (getN h' a).data = (getN h a).data →
    (getN h' a).down = (getN h a).down →
    Realizes h' lo hi a b := by
  induction hr with
  | mk lo hi a d bs cs h1 h2 h3 h4 h5 h6 h7 h8 h9 ih =>
    intro hsz hfr hda hdo
    have hmem : ∀ c ∈ cs, a + 1 ≤ c ∧ c < hi := by
      intro c hc
      obtain ⟨i, hi1, hi2⟩ := List.getElem_of_mem hc
      have hib : i < (cs.zip bs).length := by
        rw [List.length_zip, h8]
        simpa [h8] using hi1
      have hib2 : i < bs.length := by omega
      have hpm : (c, bs.get ⟨i, hib2⟩) ∈ cs.zip bs := by
        have h0 := List.getElem_mem hib
        rw [List.getElem_zip, hi2] at h0
        simpa [List.get_eq_getElem] using h0
      have := Realizes_bounds (h9 _ hpm)
      exact ⟨this.1, this.2.1⟩
    have hfull : ∀ c ∈ cs, getN h' c = getN h c := by
      intro c hc
      obtain ⟨hc1, hc2⟩ := hmem c hc
      exact hfr c (by omega) hc2 (by omega)
    refine Realizes.mk lo hi a d bs cs h1 h2 (le_trans h3 hsz)
      (by rw [hda, h4]) ⟨by rw [hdo, h5.1], ?_⟩ h6 (le_trans h7 hsz) h8 ?_
    · refine segLinks_frame ?_ h5.2
      intro x hx
      rw [hfull x hx]
    · intro p hp
      obtain ⟨c, bb⟩ := p
      have hp1 : c ∈ cs := (List.of_mem_zip hp).1
      refine ih (c, bb) hp hsz ?_ ?_ ?_
      · intro x hx1 hx2 _
        exact hfr x (by omega) hx2 (by omega)
      · rw [hfull c hp1]
      · rw [hfull c hp1]

/-- `sibReal h lo cs bs hi`: the sibling roots `cs` realize the builds
`bs` in order, in consecutive (disjoint) address regions that tile
`[lo, hi)` from left to right. -/
def sibReal (h : Heap T) : Nat → List Nat → List (Build T) → Nat → Prop
  | lo, [], [], hi => lo ≤ hi
  | lo, c :: cs', b :: bs', hi =>
      lo ≤ c ∧ ∃ mid, Realizes h c mid c b ∧ sibReal h mid cs' bs' hi
  | _, _, _, _ => False

theorem sibReal_le {h : Heap T} :
    ∀ {cs : List Nat} {bs : List (Build T)} {lo hi : Nat},
      sibReal h lo cs bs hi → lo ≤ hi := by
  intro cs
  induction cs with
  | nil =>
    intro bs lo hi hs
    cases bs with
    | nil => exact hs
    | cons b bs' => exact absurd hs (by simp [sibReal])
  | cons c cs' ih =>
    intro bs lo hi hs
    cases bs with
    | nil => exact absurd hs (by simp [sibReal])
    | cons b bs' =>
      obtain ⟨h1, mid, hrel, hrest⟩ := hs
      have h2 := (Realizes_bounds hrel).2.1
      have h3 := ih hrest
      omega

theorem sibReal_length {h : Heap T} :
    ∀ {cs : List Nat} {bs : List (Build T)} {lo hi : Nat},
      sibReal h lo cs bs hi → cs.length = bs.length := by
  intro cs
  induction cs with
  | nil =>
    intro bs lo hi hs
    cases bs with
    | nil => rfl
    | cons b bs' => exact absurd hs (by simp [sibReal])
  | cons c cs' ih =>
    intro bs lo hi hs
    cases bs with
    | nil => exact absurd hs (by simp [sibReal])
    | cons b bs' =>
      obtain ⟨h1, mid, hrel, hrest⟩ := hs
      simpa using ih hrest

theorem sibReal_mem_bounds {h : Heap T} :
    ∀ {cs : List Nat} {bs : List (Build T)} {lo hi : Nat},
      sibReal h lo cs bs hi → ∀ c ∈ cs, lo ≤ c ∧ c < hi := by
  intro cs
  induction cs with
  | nil => intro bs lo hi _ c hc; simp at hc
  | cons c0 cs' ih =>
    intro bs lo hi hs c hc
    cases bs with
    | nil => exact absurd hs (by simp [sibReal])
    | cons b bs' =>
      obtain ⟨h1, mid, hrel, hrest⟩ := hs
      obtain ⟨hb1, hb2, hb3⟩ := Realizes_bounds hrel
      have hmid := sibReal_le hrest
      rcases List.mem_cons.1 hc with rfl | hc
      · omega
      · have := ih hrest c hc
        omega

theorem sibReal_to_zip {h : Heap T} :
    ∀ {cs : List Nat} {bs : List (Build T)} {lo hi : Nat},
      sibReal h lo cs bs hi → hi ≤ h.size →
      ∀ p ∈ cs.zip bs, Realizes h lo hi p.1 p.2 := by
  intro cs
  induction cs with
  | nil => intro bs lo hi _ _ p hp; simp at hp
  | cons c0 cs' ih =>
    intro bs lo hi hs hsz p hp
    cases bs with
    | nil => exact absurd hs (by simp [sibReal])
    | cons b bs' =>
      obtain ⟨h1, mid, hrel, hrest⟩ := hs
      rcases List.mem_cons.1 hp with rfl | hp
      · exact Realizes_weaken hrel h1 (sibReal_le hrest) hsz
      · refine Realizes_weaken (ih hrest hsz p hp) ?_ le_rfl hsz
        have := (Realizes_bounds hrel).2.1
        omega

theorem sibReal_mono {h h' : Heap T} :
    ∀ {cs : List Nat} {bs : List (Build T)} {lo hi : Nat},
      sibReal h lo cs bs hi → hi ≤ h.size → h.size ≤ h'.size →
      (∀ x, lo ≤ x → x < hi → x ≠ lastOf cs → getN h' x = getN h x) →
      (getN h' (lastOf cs)).data = (getN h (lastOf cs)).data →
      (getN h' (lastOf cs)).down = (getN h (lastOf cs)).down →
      sibReal h' lo cs bs hi := by
  intro cs
  induction cs with
  | nil =>
    intro bs lo hi hs _ _ _ _ _
    cases bs with
    | nil => exact hs
    | cons b bs' => exact absurd hs (by simp [sibReal])
  | cons c0 cs' ih =>
    intro bs lo hi hs hsz1 hsz2 hfr hda hdo
    cases bs with
    | nil => exact absurd hs (by simp [sibReal])
    | cons b bs' =>
      obtain ⟨h1, mid, hrel, hrest⟩ := hs
      obtain ⟨hb1, hb2, hb3⟩ := Realizes_bounds hrel
      have hmid := sibReal_le hrest
      cases cs' with
      | nil =>
        cases bs' with
        | cons bb bbs => exact absurd hrest (by simp [sibReal])
        | nil =>
          have hL : lastOf [c0] = c0 := by simp [lastOf]
          rw [hL] at hfr hda hdo
          refine ⟨h1, mid, ?_, ?_⟩
          · refine Realizes_mono hrel hsz2 ?_ hda hdo
            intro x hx1 hx2 hx3
            exact hfr x (by omega) (by omega) hx3
          · exact hrest
      | cons c1 cs'' =>
        have hL : lastOf (c0 :: c1 :: cs'') = lastOf (c1 :: cs'') :=
          lastOf_cons_cons _ _ _
        rw [hL] at hfr hda hdo
        have hLmem : lastOf (c1 :: cs'') ∈ c1 :: cs'' :=
          lastOf_mem (by simp)
        have hLlo : mid ≤ lastOf (c1 :: cs'') :=
          (sibReal_mem_bounds hrest _ hLmem).1
        have hfull : ∀ x, c0 ≤ x → x < mid → getN h' x = getN h x := by
          intro x hx1 hx2
          exact hfr x (by omega) (by omega) (by omega)
        refine ⟨h1, mid, ?_, ?_⟩
        · refine Realizes_mono hrel hsz2
            (fun x hx1 hx2 _ => hfull x hx1 hx2) ?_ ?_
          · rw [hfull c0 le_rfl hb2]
          · rw [hfull c0 le_rfl hb2]
        · refine ih hrest hsz1 hsz2 ?_ hda hdo
          intro x hx1 hx2 hx3
          exact hfr x (by omega) hx2 hx3

theorem sibReal_append_one {h : Heap T} {b : Build T} :
    ∀ {cs : List Nat} {bs : List (Build T)} {lo mid r hi : Nat},
      sibReal h lo cs bs mid → mid ≤ r → Realizes h r hi r b →
      sibReal h lo (cs ++ [r]) (bs ++ [b]) hi := by
  intro cs
  induction cs with
  | nil =>
    intro bs lo mid r hi hs hmr hrel
    cases bs with
    | cons bb bbs => exact absurd hs (by simp [sibReal])
    | nil =>
      have hlo : lo ≤ mid := hs
      exact ⟨by omega, hi, hrel, le_rfl⟩
  | cons c0 cs' ih =>
    intro bs lo mid r hi hs hmr hrel
    cases bs with
    | nil => exact absurd hs (by simp [sibReal])
    | cons b0 bs' =>
      obtain ⟨h1, m, hrel0, hrest⟩ := hs
      exact ⟨h1, m, hrel0, ih hrest hmr hrel⟩

theorem length_le_of_nodup_lt {l : List Nat} (hnd : l.Nodup) {N : Nat}
    (hb : ∀ x ∈ l, x < N) : l.length ≤ N := by
  classical
  have h1 : l.toFinset ⊆ Finset.range N := by
    intro x hx
    rw [List.mem_toFinset] at hx
    simpa [Finset.mem_range] using hb x hx
  have h2 := Finset.card_le_card h1
  rwa [List.toFinset_card_of_nodup hnd, Finset.card_range] at h2

theorem childrenOf_frame {h h' : Heap T} {a : Nat} {cs : List Nat}
    (hc : childrenOf h a cs)
    (hdo : (getN h' a).down = (getN h a).down)
    (hrt : ∀ c ∈ cs, (getN h' c).right = (getN h c).right) :
    childrenOf h' a cs :=
  ⟨by rw [hdo]; exact hc.1, segLinks_frame hrt hc.2⟩

theorem tail_set_sib (h : Heap T) (y : Nat) (v : Option Nat) (a : Nat) :
    tail (set_sib h y v) a = tail h a := by
  simp [tail]

theorem push_back_size (h : Heap T) (a : Nat) (t : Tree) :
    (push_back h a t).1.size = h.size := by
  by_cases hleaf : is_leaf h a = true
  · rw [push_back_leaf_eq hleaf]
    rfl
  · simp only [Bool.not_eq_true] at hleaf
    simp [push_back, hleaf, adopt, Tree.set_sib]

theorem push_back_data (h : Heap T) (a : Nat) (t : Tree) (x : Nat) :
    (getN (push_back h a t).1 x).data = (getN h x).data := by
  by_cases hleaf : is_leaf h a = true
  · rw [push_back_leaf_eq hleaf]
    simp only
    rw [data_set_child]
  · simp only [Bool.not_eq_true] at hleaf
    simp [push_back, hleaf, adopt, Tree.set_sib]

theorem push_back_down_ne (h : Heap T) (a : Nat) (t : Tree) {x : Nat}
    (hxa : x ≠ a) :
    (getN (push_back h a t).1 x).down = (getN h x).down := by
  by_cases hleaf : is_leaf h a = true
  · rw [push_back_leaf_eq hleaf]
    simp only
    rw [down_set_child_ne _ _ _ hxa]
  · simp only [Bool.not_eq_true] at hleaf
    simp [push_back, hleaf, adopt, Tree.set_sib,
      down_set_child_ne _ _ _ hxa]

theorem push_back_right_ne (h : Heap T) (a : Nat) (t : Tree) {x : Nat}
    (hx1 : x ≠ deref t.root) (hx2 : x ≠ deref (tail h a)) :
    (getN (push_back h a t).1 x).right = (getN h x).right := by
  by_cases hleaf : is_leaf h a = true
  · rw [push_back_leaf_eq hleaf]
    simp only
    rw [right_set_child]
  · simp only [Bool.not_eq_true] at hleaf
    simp only [push_back, hleaf, Bool.false_eq_true, if_false]
    rw [right_set_child, adopt, Tree.set_sib, tail_set_sib,
      right_set_sib_ne _ _ _ hx2, right_set_sib_ne _ _ _ hx1]

theorem deref_tail_of_childrenOf {h : Heap T} {a : Nat} {cs : List Nat}
    (hc : childrenOf h a cs) : deref (tail h a) = lastOf cs := by
  show deref ((getN h a).down) = lastOf cs
  rw [hc.1]
  rfl

/-- Correctness statement for interpreting one build: fresh root at the
old `size`, size growth, full frame below the old `size`, a standalone
root (`right` = itself), and the root realizing the build inside the
freshly allocated region. -/
def BTspec (b : Build T) : Prop :=
  ∀ h : Heap T,
    (buildT b h).2 = h.size ∧
    h.size < (buildT b h).1.size ∧
    (∀ x, x < h.size → getN (buildT b h).1 x = getN h x) ∧
    (getN (buildT b h).1 h.size).right = some h.size ∧
    Realizes (buildT b h).1 h.size (buildT b h).1.size h.size b

/-- Correctness statement for interpreting a list of child builds against
parent `a`: the `childrenOf`/`sibReal` invariant is preserved, the child
list grows by fresh roots realizing the new builds, and besides fresh
addresses only `a`'s `down` and the old roots' `right` fields change. -/
def BLspec (bs : List (Build T)) : Prop :=
  ∀ (h : Heap T) (a : Nat) (cs : List Nat) (bsp : List (Build T)),
    a < h.size →
    childrenOf h a cs →
    cs.Nodup →
    sibReal h (a+1) cs bsp h.size →
    h.size ≤ (buildList bs h a).size ∧
    (∀ x, x < h.size → x ≠ a → x ∉ cs →
      getN (buildList bs h a) x = getN h x) ∧
    (getN (buildList bs h a) a).right = (getN h a).right ∧
    (getN (buildList bs h a) a).data = (getN h a).data ∧
    ∃ rs, childrenOf (buildList bs h a) a (cs ++ rs) ∧
      (cs ++ rs).Nodup ∧
      sibReal (buildList bs h a) (a+1) (cs ++ rs) (bsp ++ bs)
        (buildList bs h a).size

theorem build_spec (T : Type) :
    ∀ n : Nat, (∀ b : Build T, sizeOf b ≤ n → BTspec b) ∧
      (∀ bs : List (Build T), sizeOf bs ≤ n → BLspec bs) := by
  intro n
  induction n with
  | zero =>
    constructor
    · intro b hb
      cases b with
      | node d cs => simp at hb
    · intro bs hbs
      cases bs with
      | nil => simp at hbs
      | cons b bs' => simp at hbs
  | succ n ih =>
    constructor
    · intro b hb
      cases b with
      | node d cs =>
        have hcs : sizeOf cs ≤ n := by
          simp at hb
          omega
        have ihBL := ih.2 cs hcs
        intro h
        rw [buildT_node_eq]
        have hms : (make_node h d).1.size = h.size + 1 := make_node_size h d
        have ha0 : h.size < (make_node h d).1.size := by omega
        have hco0 : childrenOf (make_node h d).1 h.size [] := by
          refine ⟨?_, ?_⟩
          · rw [getN_make_node_same]
            rfl
          · simp [segLinks]
        have hsib0 : sibReal (make_node h d).1 (h.size + 1) [] []
            (make_node h d).1.size := by
          show h.size + 1 ≤ (make_node h d).1.size
          omega
        obtain ⟨hs1, hs2, hs3, hs4, hs5⟩ :=
          ihBL (make_node h d).1 h.size [] [] ha0 hco0 (by simp) hsib0
        obtain ⟨rs, hr1, hr2, hr3⟩ := hs5
        rw [List.nil_append] at hr1 hr2 hr3
        refine ⟨rfl, ?_, ?_, ?_, ?_⟩
        · show h.size < (buildList cs (make_node h d).1 h.size).size
          omega
        · intro x hx
          show getN (buildList cs (make_node h d).1 h.size) x = getN h x
          rw [hs2 x (by omega) (by omega) (by simp),
            getN_make_node_ne h d (by omega)]
        · show (getN (buildList cs (make_node h d).1 h.size) h.size).right =
            some h.size
          rw [hs3, getN_make_node_same]
        · show Realizes (buildList cs (make_node h d).1 h.size) h.size
            (buildList cs (make_node h d).1 h.size).size h.size
            (Build.node d cs)
          refine Realizes.mk _ _ _ d cs rs le_rfl (by omega) le_rfl ?_ hr1
            hr2 ?_ (sibReal_length hr3) ?_
          · rw [hs4, getN_make_node_same]
          · exact length_le_of_nodup_lt hr2
              (fun x hx => (sibReal_mem_bounds hr3 x hx).2)
          · intro p hp
            exact sibReal_to_zip hr3 le_rfl p hp
    · intro bs hbs
      cases bs with
      | nil =>
        intro h a cs bsp ha hco hnd hsib
        rw [buildList_nil_eq]
        exact ⟨le_rfl, fun x _ _ _ => rfl, rfl, rfl, [],
          by simpa using hco, by simpa using hnd, by simpa using hsib⟩
      | cons b bs' =>
        have hsz : sizeOf b ≤ n ∧ sizeOf bs' ≤ n := by
          simp at hbs
          omega
        have ihBT := ih.1 b hsz.1
        have ihBL := ih.2 bs' hsz.2
        intro h a cs bsp ha hco hnd hsib
        obtain ⟨hq2, hq1, hq3, hq4, hq5⟩ := ihBT h
        rw [buildList_cons_eq, hq2]
        set p1 := (buildT b h).1 with hp1def
        set h2 := (push_back p1 a (⟨some h.size⟩ : Tree)).1 with hh2def
        have hcb : ∀ c ∈ cs, a + 1 ≤ c ∧ c < h.size := sibReal_mem_bounds hsib
        have hlast : lastOf cs < h.size := by
          by_cases hcse : cs = []
          · subst hcse
            have h0 : lastOf ([] : List Nat) = 0 := rfl
            omega
          · exact (hcb _ (lastOf_mem hcse)).2
        have hco1 : childrenOf p1 a cs :=
          childrenOf_frame hco (by rw [hq3 a ha])
            (fun c hc => by rw [hq3 c (hcb c hc).2])
        have hsib1 : sibReal p1 (a+1) cs bsp h.size := by
          refine sibReal_mono hsib le_rfl (le_of_lt hq1) ?_ ?_ ?_
          · intro x _ hx2 _
            exact hq3 x hx2
          · rw [hq3 _ hlast]
          · rw [hq3 _ hlast]
        have hndr : (cs ++ [h.size]).Nodup := by
          rw [List.nodup_append]
          refine ⟨hnd, by simp, ?_⟩
          intro c hc1 hc2
          have := (hcb c hc1).2
          simp at hc2
          omega
        have hco2 : childrenOf h2 a (cs ++ [h.size]) :=
          push_back_childrenOf hco1 hq4 hndr
        have hsz2 : h2.size = p1.size := push_back_size p1 a _
        have hdt : deref (tail p1 a) = lastOf cs := deref_tail_of_childrenOf hco1
        have hfr2 : ∀ x, x ≠ h.size → (cs ≠ [] → x ≠ lastOf cs) → x ≠ a →
            getN h2 x = getN p1 x := by
          intro x h1 h2x h3
          apply node_eq
          · exact push_back_down_ne p1 a _ h3
          · by_cases hcse : cs = []
            · rw [hh2def,
                push_back_leaf_eq (childrenOf_is_leaf_true (hcse ▸ hco1))]
              simp only
              rw [right_set_child]
            · exact push_back_right_ne p1 a _ h1
                (by rw [hdt]; exact h2x hcse)
          · exact push_back_data p1 a _ x
        have hrel2 : Realizes h2 h.size p1.size h.size b := by
          refine Realizes_mono hq5 (le_of_eq hsz2.symm) ?_ ?_ ?_
          · intro x hx1 hx2 hx3
            exact hfr2 x hx3 (fun _ => by omega) (by omega)
          · exact push_back_data p1 a _ _
          · exact push_back_down_ne p1 a _ (by omega)
        have hsib2 : sibReal h2 (a+1) cs bsp h.size := by
          by_cases hcse : cs = []
          · subst hcse
            cases bsp with
            | cons bb bbs => exact absurd hsib1 (by simp [sibReal])
            | nil => exact hsib1
          · refine sibReal_mono hsib1 (le_of_lt hq1) (le_of_eq hsz2.symm)
              ?_ ?_ ?_
            · intro x hx1 hx2 hx3
              exact hfr2 x (by omega) (fun _ => hx3) (by omega)
            · exact push_back_data p1 a _ _
            · exact push_back_down_ne p1 a _
                (by have := (hcb _ (lastOf_mem hcse)).1; omega)
        have hsib3 : sibReal h2 (a+1) (cs ++ [h.size]) (bsp ++ [b])
            h2.size := by
          rw [hsz2]
          exact sibReal_append_one hsib2 le_rfl hrel2
        have ha2 : a < h2.size := by omega
        obtain ⟨hs1, hs2, hs3, hs4, hs5⟩ :=
          ihBL h2 a (cs ++ [h.size]) (bsp ++ [b]) ha2 hco2 hndr hsib3
        obtain ⟨rs', hr1, hr2, hr3⟩ := hs5
        have hra : (getN h2 a).right = (getN p1 a).right := by
          by_cases hcse : cs = []
          · rw [hh2def,
              push_back_leaf_eq (childrenOf_is_leaf_true (hcse ▸ hco1))]
            simp only
            rw [right_set_child]
          · refine push_back_right_ne p1 a _ (by show a ≠ h.size; omega) ?_
            rw [hdt]
            have := (hcb _ (lastOf_mem hcse)).1
            omega
        refine ⟨by omega, ?_, ?_, ?_, ?_⟩
        · intro x hx hxa hxcs
          have hxr : x ∉ cs ++ [h.size] := by
            intro hmem
            rcases List.mem_append.1 hmem with hm | hm
            · exact hxcs hm
            · simp at hm
              omega
          rw [hs2 x (by omega) hxa hxr,
            hfr2 x (by omega) (fun hne heq => hxcs (heq ▸ lastOf_mem hne)) hxa,
            hq3 x hx]
        · rw [hs3, hra, hq3 a ha]
        · rw [hs4, push_back_data p1 a _ a, hq3 a ha]
        · refine ⟨h.size :: rs', ?_, ?_, ?_⟩
          · have := hr1
            rwa [List.append_assoc, List.singleton_append] at this
          · have := hr2
            rwa [List.append_assoc, List.singleton_append] at this
          · have := hr3
            rwa [List.append_assoc, List.singleton_append, List.append_assoc,
              List.singleton_append] at this

theorem Realizes_inv {h : Heap T} {lo hi a : Nat} {d : T} {bs : List (Build T)}
    (hr : Realizes h lo hi a (.node d bs)) :
    (getN h a).data = d ∧
    ∃ cs, childrenOf h a cs ∧ cs.Nodup ∧ cs.length ≤ h.size ∧
      cs.length = bs.length ∧
      ∀ p ∈ cs.zip bs, Realizes h (a+1) hi p.1 p.2 := by
  cases hr with
  | mk lo hi a d bs cs h1 h2 h3 h4 h5 h6 h7 h8 h9 =>
    exact ⟨h4, cs, h5, h6, h7, h8, h9⟩

theorem zip_transversal {α β : Type} :
    ∀ (cs : List α) (cs' : List α) (bs : List β),
      cs.length = bs.length → cs'.length = bs.length →
      ∀ p ∈ cs.zip cs',
        ∃ b', (p.1, b') ∈ cs.zip bs ∧ (p.2, b') ∈ cs'.zip bs := by
  intro cs
  induction cs with
  | nil =>
    intro cs' bs _ _ p hp
    simp at hp
  | cons c cs0 ih =>
    intro cs' bs hl1 hl2 p hp
    cases bs with
    | nil => simp at hl1
    | cons b bs0 =>
      cases cs' with
      | nil => simp at hl2
      | cons c' cs0' =>
        rw [List.zip_cons_cons] at hp
        rcases List.mem_cons.1 hp with rfl | hp2
        · exact ⟨b, by simp, by simp⟩
        · obtain ⟨b', hb1, hb2⟩ := ih cs0' bs0 (by simpa using hl1)
            (by simpa using hl2) p hp2
          exact ⟨b', List.mem_cons_of_mem _ hb1, List.mem_cons_of_mem _ hb2⟩

theorem exists_uniform_fuel [DecidableEq T] {h : Heap T} :
    ∀ {l : List (Nat × Nat)},
      (∀ p ∈ l, ∃ n, ∀ m, n ≤ m → eqNode h m p.1 p.2 = true) →
      ∃ n, ∀ p ∈ l, ∀ m, n ≤ m → eqNode h m p.1 p.2 = true := by
  intro l
  induction l with
  | nil =>
    intro _
    exact ⟨0, by simp⟩
  | cons p ps ih =>
    intro hall
    obtain ⟨n1, hn1⟩ := hall p (by simp)
    obtain ⟨n2, hn2⟩ := ih (fun q hq => hall q (List.mem_cons_of_mem _ hq))
    refine ⟨max n1 n2, ?_⟩
    intro q hq m hm
    rcases List.mem_cons.1 hq with rfl | hq
    · exact hn1 m (le_trans (le_max_left _ _) hm)
    · exact hn2 q hq m (le_trans (le_max_right _ _) hm)

theorem eq_of_realizes [DecidableEq T] {h : Heap T} {lo hi a : Nat}
    {b : Build T} (hr : Realizes h lo hi a b) :
    ∀ {lo' hi' a' : Nat}, Realizes h lo' hi' a' b →
      ∃ n, ∀ m, n ≤ m → eqNode h m a a' = true := by
  induction hr with
  | mk lo hi a d bs cs h1 h2 h3 h4 h5 h6 h7 h8 h9 ih =>
    intro lo' hi' a' hr'
    obtain ⟨g4, cs', g5, g6, g7, g8, g9⟩ := Realizes_inv hr'
    have hch : children h a = cs := children_eq h5 h6 h7
    have hch' : children h a' = cs' := children_eq g5 g6 g7
    have hpt : ∀ p ∈ cs.zip cs', ∃ n, ∀ m, n ≤ m →
        eqNode h m p.1 p.2 = true := by
      intro p hp
      obtain ⟨b', hb1, hb2⟩ := zip_transversal cs cs' bs h8 g8 p hp
      exact ih _ hb1 (g9 _ hb2)
    obtain ⟨N, hN⟩ := exists_uniform_fuel hpt
    refine ⟨N + 1, ?_⟩
    intro m hm
    obtain ⟨k, rfl⟩ : ∃ k, m = k + 1 := ⟨m - 1, by omega⟩
    rw [eqNode_succ]
    simp only [Bool.and_eq_true, decide_eq_true_eq, beq_iff_eq,
      List.all_eq_true]
    refine ⟨by rw [h4, g4], ?_, ?_⟩
    · rw [hch, hch']
      omega
    · intro p hp
      rw [hch, hch'] at hp
      exact hN p hp k (by omega)

/-- Value-difference relation on builds: the two builds have the same
shape and differ exactly in one descendant's data. -/
inductive DiffersAt : Build T → Build T → Prop where
  | here (d d' : T) (cs : List (Build T)) : d ≠ d' →
      DiffersAt (.node d cs) (.node d' cs)
  | child (d : T) (pre post : List (Build T)) (b b' : Build T) :
      DiffersAt b b' →
      DiffersAt (.node d (pre ++ b :: post)) (.node d (pre ++ b' :: post))

theorem eqNode_false_of_differs [DecidableEq T] {b b' : Build T}
    (hd : DiffersAt b b') :
    ∀ {h : Heap T} {lo hi a lo' hi' a' : Nat},
      Realizes h lo hi a b → Realizes h lo' hi' a' b' →
      ∀ m, eqNode h m a a' = false := by
  induction hd with
  | here d d' cs hne =>
    intro h lo hi a lo' hi' a' hr hr' m
    cases m with
    | zero => rfl
    | succ k =>
      obtain ⟨h4, _⟩ := Realizes_inv hr
      obtain ⟨g4, _⟩ := Realizes_inv hr'
      rw [eqNode_succ]
      have hdec : decide ((getN h a).data = (getN h a').data) = false := by
        simp only [decide_eq_false_iff_not]
        rw [h4, g4]
        exact hne
      rw [hdec, Bool.false_and]
  | child d pre post b b' hdiff ih =>
    intro h lo hi a lo' hi' a' hr hr' m
    cases m with
    | zero => rfl
    | succ k =>
      obtain ⟨h4, cs, h5, h6, h7, h8, h9⟩ := Realizes_inv hr
      obtain ⟨g4, cs', g5, g6, g7, g8, g9⟩ := Realizes_inv hr'
      have hch : children h a = cs := children_eq h5 h6 h7
      have hch' : children h a' = cs' := children_eq g5 g6 g7
      have hibs : pre.length < (pre ++ b :: post).length := by
        simp
      have hibs' : pre.length < (pre ++ b' :: post).length := by
        simp
      have hics : pre.length < cs.length := by omega
      have hics' : pre.length < cs'.length := by
        rw [g8]
        exact hibs'
      have hgb : (pre ++ b :: post).get ⟨pre.length, hibs⟩ = b := by
        simp only [List.get_eq_getElem]
        rw [List.getElem_append_right le_rfl]
        simp
      have hgb' : (pre ++ b' :: post).get ⟨pre.length, hibs'⟩ = b' := by
        simp only [List.get_eq_getElem]
        rw [List.getElem_append_right le_rfl]
        simp
      have hz1 : pre.length < (cs.zip (pre ++ b :: post)).length := by
        rw [List.length_zip]
        omega
      have hz2 : pre.length < (cs'.zip (pre ++ b' :: post)).length := by
        rw [List.length_zip]
        omega
      have hz3 : pre.length < (cs.zip cs').length := by
        rw [List.length_zip]
        omega
      have hget1 : (cs.zip (pre ++ b :: post)).get ⟨pre.length, hz1⟩ =
          (cs.get ⟨pre.length, hics⟩, b) := by
        rw [show (cs.zip (pre ++ b :: post)).get ⟨pre.length, hz1⟩ =
            (cs.get ⟨pre.length, hics⟩,
              (pre ++ b :: post).get ⟨pre.length, hibs⟩) by
          simp [List.get_eq_getElem, List.getElem_zip], hgb]
      have hget2 : (cs'.zip (pre ++ b' :: post)).get ⟨pre.length, hz2⟩ =
          (cs'.get ⟨pre.length, hics'⟩, b') := by
        rw [show (cs'.zip (pre ++ b' :: post)).get ⟨pre.length, hz2⟩ =
            (cs'.get ⟨pre.length, hics'⟩,
              (pre ++ b' :: post).get ⟨pre.length, hibs'⟩) by
          simp [List.get_eq_getElem, List.getElem_zip], hgb']
      have hget3 : (cs.zip cs').get ⟨pre.length, hz3⟩ =
          (cs.get ⟨pre.length, hics⟩, cs'.get ⟨pre.length, hics'⟩) := by
        simp [List.get_eq_getElem, List.getElem_zip]
      have hmem1 : (cs.get ⟨pre.length, hics⟩, b) ∈
          cs.zip (pre ++ b :: post) := by
        rw [← hget1]
        exact List.get_mem _ _ _
      have hmem2 : (cs'.get ⟨pre.length, hics'⟩, b') ∈
          cs'.zip (pre ++ b' :: post) := by
        rw [← hget2]
        exact List.get_mem _ _ _
      have hmem3 : (cs.get ⟨pre.length, hics⟩, cs'.get ⟨pre.length, hics'⟩) ∈
          cs.zip cs' := by
        rw [← hget3]
        exact List.get_mem _ _ _
      have hfalse : eqNode h k (cs.get ⟨pre.length, hics⟩)
          (cs'.get ⟨pre.length, hics'⟩) = false :=
        ih (h9 _ hmem1) (g9 _ hmem2) k
      have hall : ((cs.zip cs').all fun p => eqNode h k p.1 p.2) = false :=
        List.all_eq_false.2 ⟨_, hmem3, by
          show ¬ eqNode h k (cs.get ⟨pre.length, hics⟩)
            (cs'.get ⟨pre.length, hics'⟩) = true
          rw [hfalse]
          simp⟩
      rw [eqNode_succ, hch, hch', hall, Bool.and_false, Bool.and_false]


/-- The empty heap over `Nat` payloads. -/
def emptyHeap : Heap Nat := ⟨0, fun _ => ⟨none, none, 0⟩⟩

def stepA1 : Heap Nat × Nat := make_node emptyHeap 0
def stepA2 : Heap Nat × Nat := make_node stepA1.1 1
def stepA3 : Heap Nat × Nat := make_node stepA2.1 2
def stepA4 : Heap Nat × Nat := make_node stepA3.1 3

/-- Heap after `push_back(tree 1)`, `push_back(tree 2)` on node 0. -/
def heapB : Heap Nat :=
  (push_back (push_back stepA4.1 0 ⟨some 1⟩).1 0 ⟨some 2⟩).1

/-- Heap after a further `push_front(tree 3)` on node 0. -/
def heapC : Heap Nat := (push_front heapB 0 ⟨some 3⟩).1

/-- Result of `pop_front()` on node 0 of `heapC`. -/
def popC : Heap Nat × Option Tree := pop_front heapC 0

/-- Claim C6.  The concrete scenario: building node `0` with children
`1`, `2` via two `push_back`s gives the child data sequence `[1, 2]`;
`push_front` of tree `3` gives `[3, 1, 2]`; `pop_front` returns the
singleton tree `3` (its node leafless with `right` = itself) and leaves
`[1, 2]`. -/
theorem concrete_scenario_push_pop :
    childData heapB 0 = [1, 2] ∧
    childData heapC 0 = [3, 1, 2] ∧
    popC.2 = some ⟨some 3⟩ ∧
    (getN popC.1 3).data = 3 ∧
    (getN popC.1 3).right = some 3 ∧
    is_leaf popC.1 3 = true ∧
    childData popC.1 0 = [1, 2] := by
  decide

/-- Heap with three two-child trees: `0(1,2)` with data `0(1,2)`,
`3(4,5)` with data `0(1,2)` (same construction sequence as the first),
and `6(7,8)` with data `0(1,9)` (one descendant's data differs). -/
def eqHeap : Heap Nat :=
  (push_back (push_back (push_back (push_back (push_back (push_back
    (make_node (make_node (make_node (make_node (make_node (make_node
      (make_node (make_node (make_node emptyHeap
        0).1 1).1 2).1 0).1 1).1 2).1 0).1 1).1 9).1
    0 ⟨some 1⟩).1 0 ⟨some 2⟩).1 3 ⟨some 4⟩).1 3 ⟨some 5⟩).1
    6 ⟨some 7⟩).1 6 ⟨some 8⟩).1

/-- Claim C9.  Node equality compares `data` and then the children
sequences element by element, recursively (that is `eqNode`'s
definition, read off `impl PartialEq for Node`); hence it is reflexive
(on any tree of finite depth); any two trees built by the same sequence
of construction operations — the same abstract build `b` interpreted by
`buildT` (one `make_node` plus a `push_back` per child, recursively) at
two different heap positions — compare equal at every sufficient fuel;
and two trees whose builds differ in exactly one descendant's data
(`DiffersAt`) compare unequal at every fuel.  The concrete pairs
`0(1,2)` vs `3(4,5)` (equal) and `0(1,2)` vs `6(7,8)` (unequal) of
`eqHeap` instantiate the two. -/
theorem eq_recursive_spec :
    (∀ (T : Type) (inst : DecidableEq T) (h : Heap T) (n a : Nat),
      finDepth h n a = true → @eqNode T inst h (n+1) a a = true) ∧
    (∀ (T : Type) (inst : DecidableEq T) (b : Build T) (h : Heap T),
      ∃ n, ∀ m, n ≤ m →
        @eqNode T inst (buildT b (buildT b h).1).1 m
          (buildT b h).2 (buildT b (buildT b h).1).2 = true) ∧
    (∀ (T : Type) (inst : DecidableEq T) (b b' : Build T), DiffersAt b b' →
      ∀ (h : Heap T) (m : Nat),
        @eqNode T inst (buildT b' (buildT b h).1).1 m
          (buildT b h).2 (buildT b' (buildT b h).1).2 = false) ∧
    eqNode eqHeap 2 0 3 = true ∧
    eqNode eqHeap 2 0 6 = false := by
  refine ⟨?_, ?_, ?_, by decide, by decide⟩
  · intro T inst h n a hfin
    exact eqNode_refl n a hfin
  · intro T inst b h
    obtain ⟨hq2, hq1, hq3, hq4, hq5⟩ := (build_spec T (sizeOf b)).1 b le_rfl h
    obtain ⟨hp2, hp1, hp3, hp4, hp5⟩ :=
      (build_spec T (sizeOf b)).1 b le_rfl (buildT b h).1
    have hq5' : Realizes (buildT b (buildT b h).1).1 h.size
        (buildT b h).1.size h.size b := by
      refine Realizes_mono hq5 (le_of_lt hp1) ?_ ?_ ?_
      · intro x _ hx2 _
        exact hp3 x hx2
      · rw [hp3 _ hq1]
      · rw [hp3 _ hq1]
    obtain ⟨n, hn⟩ := eq_of_realizes hq5' hp5
    refine ⟨n, ?_⟩
    intro m hm
    rw [hq2, hp2]
    exact hn m hm
  · intro T inst b b' hd h m
    obtain ⟨hq2, hq1, hq3, hq4, hq5⟩ := (build_spec T (sizeOf b)).1 b le_rfl h
    obtain ⟨hp2, hp1, hp3, hp4, hp5⟩ :=
      (build_spec T (sizeOf b')).1 b' le_rfl (buildT b h).1
    have hq5' : Realizes (buildT b' (buildT b h).1).1 h.size
        (buildT b h).1.size h.size b := by
      refine Realizes_mono hq5 (le_of_lt hp1) ?_ ?_ ?_
      · intro x _ hx2 _
        exact hp3 x hx2
      · rw [hp3 _ hq1]
      · rw [hp3 _ hq1]
    rw [hq2, hp2]
    exact eqNode_false_of_differs hd hq5' hp5 m

/-! ### Witnesses: the claim theorems applied at concrete inputs -/

/-- Heap `heapB` extended with a standalone two-tree forest ring `[4, 5]`
(data `20`, `30`). -/
def fHeap : Heap Nat :=
  set_sib (set_sib (make_node (make_node heapB 20).1 30).1 4 (some 5)) 5 (some 4)

theorem push_front_spec_witness :
    (childrenOf heapB 0 [1, 2] ∧ (getN heapB 3).right = some 3 ∧
      ([3, 1, 2] : List Nat).Nodup) ∧
    (childrenOf (push_front heapB 0 ⟨some 3⟩).1 0 (3 :: [1, 2]) ∧
      (push_front heapB 0 ⟨some 3⟩).2.root = none ∧
      (([1, 2] : List Nat) = [] →
        (getN (push_front heapB 0 ⟨some 3⟩).1 0).down = some 3) ∧
      (([1, 2] : List Nat) ≠ [] →
        (getN (push_front heapB 0 ⟨some 3⟩).1 3).right = head heapB 0 ∧
        (getN (push_front heapB 0 ⟨some 3⟩).1 (lastOf [1, 2])).right = some 3 ∧
        (getN (push_front heapB 0 ⟨some 3⟩).1 0).down = (getN heapB 0).down)) :=
  ⟨⟨by decide, by decide, by decide⟩,
    push_front_spec (by decide) (by decide) (by decide)⟩

theorem pop_front_spec_witness :
    (childrenOf heapC 0 [3, 1, 2] ∧ ([3, 1, 2] : List Nat).Nodup) ∧
    (((pop_front heapC 0).2 = none ↔ ([3, 1, 2] : List Nat) = []) ∧
      (([3, 1, 2] : List Nat) = [] → (pop_front heapC 0).1 = heapC) ∧
      ∀ c cs', ([3, 1, 2] : List Nat) = c :: cs' →
        (pop_front heapC 0).2 = some ⟨some c⟩ ∧
        (getN (pop_front heapC 0).1 c).right = some c ∧
        childrenOf (pop_front heapC 0).1 0 cs' ∧
        (cs' = [] → (getN (pop_front heapC 0).1 0).down = none) ∧
        (cs' ≠ [] →
          (getN (pop_front heapC 0).1 (lastOf cs')).right = some (cs'.headD 0) ∧
          (getN (pop_front heapC 0).1 0).down = (getN heapC 0).down)) :=
  ⟨⟨by decide, by decide⟩, pop_front_spec (by decide) (by decide)⟩

theorem push_front_pop_front_inverse_witness :
    (childrenOf heapB 0 [1, 2] ∧ (getN heapB 3).right = some 3 ∧
      ([3, 1, 2] : List Nat).Nodup) ∧
    ((pop_front (push_front heapB 0 ⟨some 3⟩).1 0).2 = some ⟨some 3⟩ ∧
      (∀ x, getN (pop_front (push_front heapB 0 ⟨some 3⟩).1 0).1 x =
        getN heapB x) ∧
      (pop_front (push_front heapB 0 ⟨some 3⟩).1 0).1.size = heapB.size ∧
      childrenOf (pop_front (push_front heapB 0 ⟨some 3⟩).1 0).1 0 [1, 2]) :=
  ⟨⟨by decide, by decide, by decide⟩,
    push_front_pop_front_inverse (by decide) (by decide) (by decide)⟩

theorem append_prepend_spec_witness :
    (childrenOf fHeap 0 [1, 2] ∧ ([4, 5] : List Nat) ≠ [] ∧
      segLinks fHeap [4, 5] (([4, 5] : List Nat).headD 0) ∧
      ([4, 5, 1, 2] : List Nat).Nodup) ∧
    (childrenOf (append fHeap 0 ⟨([4, 5] : List Nat).getLast?⟩).1 0
        ([1, 2] ++ [4, 5]) ∧
      (getN (append fHeap 0 ⟨([4, 5] : List Nat).getLast?⟩).1 0).down =
        ([4, 5] : List Nat).getLast? ∧
      (append fHeap 0 ⟨([4, 5] : List Nat).getLast?⟩).2 = ⟨none⟩ ∧
      childrenOf (prepend fHeap 0 ⟨([4, 5] : List Nat).getLast?⟩).1 0
        ([4, 5] ++ [1, 2]) ∧
      (([1, 2] : List Nat) ≠ [] →
        (getN (prepend fHeap 0 ⟨([4, 5] : List Nat).getLast?⟩).1 0).down =
          (getN fHeap 0).down) ∧
      (prepend fHeap 0 ⟨([4, 5] : List Nat).getLast?⟩).2 = ⟨none⟩ ∧
      (∀ (h' : Heap Nat) (a' : Nat),
        append h' a' ⟨none⟩ = (h', ⟨none⟩) ∧
        prepend h' a' ⟨none⟩ = (h', ⟨none⟩))) :=
  ⟨⟨by decide, by decide, by decide, by decide⟩,
    append_prepend_spec (by decide) (by decide) (by decide) (by decide)⟩

theorem children_spec_witness :
    (childrenOf heapB 0 [1, 2] ∧ ([1, 2] : List Nat).length ≤ heapB.size ∧
      (getN heapB 3).right = some 3 ∧ ([3, 1, 2] : List Nat).Nodup) ∧
    (children heapB 0 = [1, 2] ∧
      (([1, 2] : List Nat) = [] → is_leaf heapB 0 = true ∧
        children heapB 0 = []) ∧
      (([1, 2] : List Nat) ≠ [] → is_leaf heapB 0 = false) ∧
      is_leaf (push_front heapB 0 ⟨some 3⟩).1 0 = false ∧
      is_leaf (push_back heapB 0 ⟨some 3⟩).1 0 = false) :=
  ⟨⟨by decide, by decide, by decide, by decide⟩,
    children_spec (by decide) (by decide) (by decide) (by decide)⟩

theorem make_node_spec_witness :
    (make_node emptyHeap 7).2 = emptyHeap.size ∧
    (make_node emptyHeap 7).1.size = emptyHeap.size + 1 ∧
    (getN (make_node emptyHeap 7).1 (make_node emptyHeap 7).2).data = 7 ∧
    is_leaf (make_node emptyHeap 7).1 (make_node emptyHeap 7).2 = true ∧
    (getN (make_node emptyHeap 7).1 (make_node emptyHeap 7).2).right =
      some (make_node emptyHeap 7).2 ∧
    ∀ x, x ≠ emptyHeap.size → getN (make_node emptyHeap 7).1 x =
      getN emptyHeap x :=
  make_node_spec emptyHeap 7

theorem eq_recursive_spec_witness :
    (finDepth eqHeap 1 0 = true ∧ eqNode eqHeap 2 0 0 = true) ∧
    (∃ n, ∀ m, n ≤ m →
      eqNode (buildT (Build.node 5 []) (buildT (Build.node 5 []) emptyHeap).1).1
        m (buildT (Build.node 5 []) emptyHeap).2
        (buildT (Build.node 5 []) (buildT (Build.node 5 []) emptyHeap).1).2 =
        true) ∧
    (DiffersAt (Build.node 0 []) (Build.node 1 []) ∧
      eqNode (buildT (Build.node 1 []) (buildT (Build.node 0 []) emptyHeap).1).1
        2 (buildT (Build.node 0 []) emptyHeap).2
        (buildT (Build.node 1 []) (buildT (Build.node 0 []) emptyHeap).1).2 =
        false) :=
  ⟨⟨by decide, eq_recursive_spec.1 Nat instDecidableEqNat eqHeap 1 0 (by decide)⟩,
    eq_recursive_spec.2.1 Nat instDecidableEqNat (Build.node 5 []) emptyHeap,
    DiffersAt.here 0 1 [] (by decide),
    eq_recursive_spec.2.2.1 Nat instDecidableEqNat (Build.node 0 [])
      (Build.node 1 []) (DiffersAt.here 0 1 [] (by decide)) emptyHeap 2⟩

theorem extend_spec_witness :
    (childrenOf heapB 0 [1, 2] ∧
      (∀ x ∈ ([3] : List Nat), (getN heapB x).right = some x) ∧
      ([1, 2, 3] : List Nat).Nodup) ∧
    childrenOf (extend heapB 0 (([3] : List Nat).map fun x => ⟨some x⟩)) 0
      ([1, 2] ++ [3]) :=
  ⟨⟨by decide, by decide, by decide⟩,
    extend_spec (by decide) (by decide) (by decide)⟩

theorem reachable_ring_invariant_witness :
    (WFf stepA1.1 [⟨none, [0]⟩] ∧
      (0 : Nat) ∈ ringJoin [(⟨none, [0]⟩ : SibRing)]) ∧
    ((getN stepA1.1 0).right ≠ none ∧
      ∃ ring ∈ [(⟨none, [0]⟩ : SibRing)], 0 ∈ ring.members ∧
        ring.members.Nodup ∧
        ((getN stepA1.1 0).right = some 0 ↔ ring.members.length = 1) ∧
        ∃ u v, ring.members = u ++ 0 :: v ∧
          ((List.range ring.members.length).map fun k =>
            (rightStep stepA1.1)^[k] 0) = 0 :: (v ++ u) ∧
          (rightStep stepA1.1)^[ring.members.length] 0 = 0) :=
  ⟨⟨by decide, by decide⟩,
    reachable_ring_invariant (by decide) (Steps.refl _ _) (by decide)⟩

end Trees
